import Mathlib

/-!
A formal model of the `kzg` crate: the dense polynomial type
`FpPolynomial<F>` from `primitives/poly.rs` and the KZG commitment
scheme from `backend/arkworks_bn254.rs`.  Polynomials are coefficient
lists (low order first); the pairing groups are abstract modules over
the scalar field; panicking operations (`unwrap`, out-of-bounds
indexing and slicing) are modelled by `Option`, with `none` standing
for a panic.
-/

set_option linter.unusedSectionVars false

namespace Plonkit

/-- Primality fact making `ZMod 5` a field in concrete instances. -/
instance : Fact (Nat.Prime 5) := ⟨by norm_num⟩

/-- Primality fact making `ZMod 101` a field in concrete instances. -/
instance : Fact (Nat.Prime 101) := ⟨by norm_num⟩

section PolyDefs

variable {F : Type} [Field F] [DecidableEq F]

/-- Helper for `trim_coefs`: the source pops trailing zero coefficients
while more than one entry remains; on the reversed list this drops
leading zeros while more than one entry remains. -/
def trimRev : List F → List F
  | [] => []
  | [a] => [a]
  | a :: b :: t => if a = 0 then trimRev (b :: t) else a :: b :: t

/-- Translation of `FpPolynomial::trim_coefs`: remove high-degree zero
coefficients, keeping at least one entry of a nonempty vector. -/
def trim_coefs (l : List F) : List F := (trimRev l.reverse).reverse

/-- Translation of `FpPolynomial::from_coefs`: build a polynomial from a
coefficient vector, trimming trailing zeros. -/
def from_coefs (l : List F) : List F := trim_coefs l

/-- Translation of `FpPolynomial::zero`. -/
def zeroPoly : List F := from_coefs [0]

/-- Translation of `FpPolynomial::degree`: `len - 1`, and `0` for an
empty coefficient vector. -/
def degree (l : List F) : Nat := if l.length = 0 then 0 else l.length - 1

/-- Translation of `FpPolynomial::is_zero`:
`self.degree() == 0 && self.coefs[0].is_zero()`.  The second operand
indexes position `0`, which panics on an empty vector; the panic is the
`none` case. -/
def is_zero (l : List F) : Option Bool :=
  if degree l = 0 then (l.get? 0).map (fun a => decide (a = 0)) else some false

/-- Accumulator loop of `FpPolynomial::eval`: `result` is the running
sum and `v` the running power of the point. -/
def evalAux (point : F) : List F → F → F → F
  | [], result, _ => result
  | c :: t, result, v => evalAux point t (result + v * c) (v * point)

/-- Translation of `FpPolynomial::eval`. -/
def eval (l : List F) (point : F) : F := evalAux point l 0 1

/-- Translation of `FpPolynomial::add_assign`/`add`: pointwise addition
on the overlap; if the second vector is longer its tail is appended,
otherwise the first vector's tail is kept; the result is trimmed. -/
def add (a b : List F) : List F :=
  trim_coefs
    (if a.length < b.length then List.zipWith (· + ·) a b ++ b.drop a.length
     else List.zipWith (· + ·) a b ++ a.drop b.length)

/-- Translation of `FpPolynomial::sub_assign`/`sub`: pointwise
subtraction on the overlap; if the second vector is longer its tail is
appended negated, otherwise the first vector's tail is kept; the result
is trimmed. -/
def sub (a b : List F) : List F :=
  trim_coefs
    (if a.length < b.length then
       List.zipWith (· - ·) a b ++ (b.drop a.length).map (fun x => -x)
     else List.zipWith (· - ·) a b ++ a.drop b.length)

/-- Translation of `FpPolynomial::mul_scalar_assign`/`mul_scalar`. -/
def mul_scalar (a : List F) (s : F) : List F :=
  trim_coefs (a.map (fun c => c * s))

/-- Inner loop of `FpPolynomial::div_rem`: for each divisor coefficient
`c` at offset `j`, subtract `qi * c` from `rem[off + j]`. -/
def innerLoop (qi : F) : List F → Nat → List F → List F
  | rem, _, [] => rem
  | rem, off, c :: cs =>
      innerLoop qi (rem.set off (rem.getD off 0 - qi * c)) (off + 1) cs

/-- Outer loop of `FpPolynomial::div_rem`, iterating `i` from
`k - l` down to `0`; the state is the pair (remainder, quotient) and the
fuel is the number of iterations left, so fuel `c + 1` processes
index `i = c`. -/
def outerLoop (dcoefs : List F) (bl_inv : F) :
    Nat → List F × List F → List F × List F
  | 0, st => st
  | c + 1, st =>
      let qi := bl_inv * st.1.getD (c + dcoefs.length - 1) 0
      let rem' := innerLoop qi st.1 c dcoefs
      outerLoop dcoefs bl_inv c (rem', st.2.set c qi)

/-- Translation of `FpPolynomial::div_rem`.  `none` models the panics:
`last().unwrap()` on an empty divisor and `inverse().unwrap()` on a
zero leading coefficient.  The `k - l + 1` pops are the `take`; if the
popped remainder is empty a single zero is pushed. -/
def div_rem (p d : List F) : Option (List F × List F) :=
  let k := p.length
  let l := d.length
  if l > k then some (zeroPoly, p)
  else
    match d.getLast? with
    | none => none
    | some bl =>
      if bl = 0 then none
      else
        let st := outerLoop d bl⁻¹ (k - l + 1) (p, List.replicate (k - l + 1) 0)
        let rem1 := st.1.take (st.1.length - (k - l + 1))
        let rem2 := if rem1.isEmpty then [0] else rem1
        some (trim_coefs (from_coefs st.2), trim_coefs (from_coefs rem2))

/-- The canonical-form invariant stated by the spec: the coefficient
vector has length one, or its last coefficient is nonzero. -/
def canonicalP (l : List F) : Prop := l.length = 1 ∨ l.getLastD 0 ≠ 0

instance (l : List F) : Decidable (canonicalP l) := by
  unfold canonicalP; infer_instance

/-- The image of a coefficient list in `Polynomial F`; the mathematical
reading of an `FpPolynomial`. -/
noncomputable def toPoly : List F → Polynomial F
  | [] => 0
  | a :: t => Polynomial.C a + Polynomial.X * toPoly t

end PolyDefs

/-- Modelled from the spec: the error taxonomy of the `errs` module
(not under `src/`), spec section 7: `DegreeError`,
`PCSProveEvalError`, `DeserializationError`. -/
inductive KZGError where
  | DegreeError
  | PCSProveEvalError
  | DeserializationError
deriving DecidableEq

/-- Translation of `KZGCommitment<G>`: a wrapper around one group
element. -/
structure KZGCommitment (G : Type) where
  val : G
deriving DecidableEq

/-- Translation of `KZGCommitmentScheme<P>`: the SRS, one sequence of
G1 points and one of G2 points. -/
structure KZGCommitmentScheme (G1 G2 : Type) where
  public_parameter_group_1 : List G1
  public_parameter_group_2 : List G2
deriving DecidableEq

section KZGDefs

variable {F : Type} [Field F] [DecidableEq F]
variable {G1 : Type} [AddCommGroup G1] [Module F G1]
variable {G2 : Type} [AddCommGroup G2] [Module F G2]
variable {GT : Type} [DecidableEq GT]

/-- Translation of `HomomorphicPolyComElem::add` for
`KZGCommitment<G1Projective>`. -/
def KZGCommitment.add (a b : KZGCommitment G1) : KZGCommitment G1 :=
  ⟨a.val + b.val⟩

/-- Translation of `HomomorphicPolyComElem::sub` for
`KZGCommitment<G1Projective>`. -/
def KZGCommitment.sub (a b : KZGCommitment G1) : KZGCommitment G1 :=
  ⟨a.val - b.val⟩

/-- Translation of `HomomorphicPolyComElem::mul` for
`KZGCommitment<G1Projective>`: the scalar action on the wrapped
point. -/
def KZGCommitment.mul (a : KZGCommitment G1) (e : F) : KZGCommitment G1 :=
  ⟨e • a.val⟩

/-- Translation of `PolyComScheme::max_degree`. -/
def max_degree (srs : KZGCommitmentScheme G1 G2) : Nat :=
  srs.public_parameter_group_1.length - 1

/-- The external multi-scalar multiplication oracle
(`G1Projective::msm`): it errs when the two slices have different
lengths, which `commit` unwraps (a panic, here `none`). -/
def msm (points : List G1) (scalars : List F) : Option G1 :=
  if points.length = scalars.length then
    some ((List.zipWith (fun a pt => a • pt) scalars points).sum)
  else none

/-- The value computed by a successful MSM: the sum of the
scalar-weighted points. -/
def msmv (scalars : List F) (points : List G1) : G1 :=
  (List.zipWith (fun a pt => a • pt) scalars points).sum

/-- Translation of `PolyComScheme::commit`.  Batch normalization of the
SRS prefix is a representation change of the same group elements, so it
is the identity here. -/
def commit (srs : KZGCommitmentScheme G1 G2) (p : List F) :
    Option (Except KZGError (KZGCommitment G1)) :=
  let d := degree p
  if d + 1 > srs.public_parameter_group_1.length then
    some (.error .DegreeError)
  else
    match msm (srs.public_parameter_group_1.take (d + 1)) p with
    | some v => some (.ok ⟨v⟩)
    | none => none

/-- Loop of `apply_blind_factors`: for the blind `b` with index `i`,
add `b • τ₁[i]` and `(-b) • τ₁[zd + i]` to the commitment; out-of-range
indexing panics (`none`). -/
def blindLoop (srs1 : List G1) (zd : Nat) : G1 → List F → Nat → Option G1
  | c, [], _ => some c
  | c, b :: bs, i =>
      match srs1.get? i with
      | none => none
      | some t1 =>
        match srs1.get? (zd + i) with
        | none => none
        | some t2 => blindLoop srs1 zd (c + b • t1 + (-b) • t2) bs (i + 1)

/-- Translation of `PolyComScheme::apply_blind_factors`. -/
def apply_blind_factors (srs : KZGCommitmentScheme G1 G2)
    (commitment : KZGCommitment G1) (blinds : List F)
    (zeroing_degree : Nat) : Option (KZGCommitment G1) :=
  match blindLoop srs.public_parameter_group_1 zeroing_degree
      commitment.val blinds 0 with
  | none => none
  | some c => some ⟨c⟩

/-- Translation of `PolyComScheme::prove`.  The final
`commit(&q_poly).unwrap()` panics when `commit` errs, hence `none`
there. -/
def prove (srs : KZGCommitmentScheme G1 G2) (p : List F) (x : F)
    (maxd : Nat) : Option (Except KZGError (KZGCommitment G1)) :=
  let ev := eval p x
  if degree p > maxd then some (.error .DegreeError)
  else
    let nominator := sub p (from_coefs [ev])
    let point_neg := -x
    let vanishing := from_coefs [point_neg, 1]
    match div_rem nominator vanishing with
    | none => none
    | some (q, r) =>
      match is_zero r with
      | none => none
      | some b =>
        if ¬ b then some (.error .PCSProveEvalError)
        else
          match commit srs q with
          | none => none
          | some (.error _) => none
          | some (.ok pf) => some (.ok pf)

/-- Translation of `PolyComScheme::verify`, abstracting the pairing as
a function into an arbitrary target type; the three SRS index accesses
panic when absent (`none`). -/
def verify (pairing : G1 → G2 → GT) (srs : KZGCommitmentScheme G1 G2)
    (cm : KZGCommitment G1) (_degree : Nat) (point ev : F)
    (proof : KZGCommitment G1) : Option (Except KZGError Unit) :=
  match srs.public_parameter_group_1.get? 0,
        srs.public_parameter_group_2.get? 0,
        srs.public_parameter_group_2.get? 1 with
  | some g1_0, some g2_0, some g2_1 =>
    let x_minus_point := g2_1 - point • g2_0
    let left := if ev = 0 then pairing cm.val g2_0
                else pairing (cm.val - ev • g1_0) g2_0
    let right := pairing proof.val x_minus_point
    some (if left = right then .ok () else .error .PCSProveEvalError)
  | _, _, _ => none

/-- Translation of `PolyComScheme::shrink_to_verifier_only`; the two G2
index accesses panic when absent. -/
def shrink_to_verifier_only (srs : KZGCommitmentScheme G1 G2) :
    Option (Except KZGError (KZGCommitmentScheme G1 G2)) :=
  match srs.public_parameter_group_1.get? 0,
        srs.public_parameter_group_2.get? 0,
        srs.public_parameter_group_2.get? 1 with
  | some g1_0, some g2_0, some g2_1 => some (.ok ⟨[g1_0], [g2_0, g2_1]⟩)
  | _, _, _ => none

end KZGDefs

section SerdeDefs

variable {P1 P2 : Type}

/-- Little-endian four-byte encoding of a `u32` value
(`u32::to_le_bytes`); the caller wraps the length with `as u32`. -/
def u32_to_le_bytes (x : Nat) : List Nat :=
  [x % 256, x / 256 % 256, x / 256 ^ 2 % 256, x / 256 ^ 3 % 256]

/-- Little-endian `u32` read (`u32::from_le_bytes`). -/
def u32_from_le_bytes (b0 b1 b2 b3 : Nat) : Nat :=
  b0 + 256 * b1 + 256 ^ 2 * b2 + 256 ^ 3 * b3

/-- Translation of `KZGCommitmentScheme::to_unchecked_bytes`,
abstracting the per-point uncompressed encoders; the source always
returns `Ok`, so the byte vector is returned directly. -/
def to_unchecked_bytes (e1 : P1 → List Nat) (e2 : P2 → List Nat)
    (srs : KZGCommitmentScheme P1 P2) : List Nat :=
  u32_to_le_bytes (srs.public_parameter_group_1.length % 2 ^ 32) ++
    u32_to_le_bytes (srs.public_parameter_group_2.length % 2 ^ 32) ++
    (srs.public_parameter_group_1.map e1).flatten ++
    (srs.public_parameter_group_2.map e2).flatten

/-- The `i`-th per-point slice `&buf[n*i..n*(i+1)]`; Rust slicing
panics when the upper bound exceeds the buffer length (`none`). -/
def readPoint (buf : List Nat) (n i : Nat) : Option (List Nat) :=
  if n * (i + 1) ≤ buf.length then some ((buf.drop (n * i)).take n)
  else none

/-- One deserialization loop of `from_unchecked_bytes`: read `cnt`
points starting at slice index `i`; a failed decode is mapped to
`DeserializationError`, an out-of-bounds slice panics (`none`). -/
def readPoints {P : Type} (decode : List Nat → Option P) (buf : List Nat)
    (n : Nat) : Nat → Nat → Option (Except KZGError (List P))
  | _, 0 => some (.ok [])
  | i, c + 1 =>
      match readPoint buf n i with
      | none => none
      | some s =>
        match decode s with
        | none => some (.error .DeserializationError)
        | some g =>
          match readPoints decode buf n (i + 1) c with
          | none => none
          | some (.error e) => some (.error e)
          | some (.ok gs) => some (.ok (g :: gs))

/-- The `len(τ₁)` count declared in the first four bytes. -/
def read_len_1 (bytes : List Nat) : Nat :=
  u32_from_le_bytes (bytes.getD 0 0) (bytes.getD 1 0) (bytes.getD 2 0)
    (bytes.getD 3 0)

/-- The `len(τ₂)` count declared in bytes four to seven. -/
def read_len_2 (bytes : List Nat) : Nat :=
  u32_from_le_bytes (bytes.getD 4 0) (bytes.getD 5 0) (bytes.getD 6 0)
    (bytes.getD 7 0)

/-- Translation of `KZGCommitmentScheme::from_unchecked_bytes`,
abstracting the per-point decoders and the fixed uncompressed sizes
`n1`, `n2`.  The slice `&bytes[8 + n1*len1..]` is taken before either
loop runs and panics (`none`) when its start exceeds the length. -/
def from_unchecked_bytes (n1 n2 : Nat) (d1 : List Nat → Option P1)
    (d2 : List Nat → Option P2) (bytes : List Nat) :
    Option (Except KZGError (KZGCommitmentScheme P1 P2)) :=
  if bytes.length < 8 then some (.error .DeserializationError)
  else
    let len1 := read_len_1 bytes
    let len2 := read_len_2 bytes
    let bytes1 := bytes.drop 8
    if 8 + n1 * len1 ≤ bytes.length then
      let bytes2 := bytes.drop (8 + n1 * len1)
      match readPoints d1 bytes1 n1 0 len1 with
      | none => none
      | some (.error e) => some (.error e)
      | some (.ok p1) =>
        match readPoints d2 bytes2 n2 0 len2 with
        | none => none
        | some (.error e) => some (.error e)
        | some (.ok p2) => some (.ok ⟨p1, p2⟩)
    else none

end SerdeDefs

deriving instance DecidableEq for Except

section PolyLemmas

variable {F : Type} [Field F] [DecidableEq F]

open Polynomial

theorem toPoly_nil : toPoly ([] : List F) = 0 := rfl

theorem toPoly_cons (a : F) (t : List F) :
    toPoly (a :: t) = C a + X * toPoly t := rfl

theorem toPoly_append (a b : List F) :
    toPoly (a ++ b) = toPoly a + X ^ a.length * toPoly b := by
  induction a with
  | nil => simp [toPoly]
  | cons x t ih => simp only [List.cons_append, toPoly_cons, ih,
      List.length_cons, pow_succ]; ring

theorem toPoly_zero_list (l : List F) (h : ∀ x ∈ l, x = 0) : toPoly l = 0 := by
  induction l with
  | nil => rfl
  | cons a t ih =>
    have ha : a = 0 := h a (by simp)
    have ht : toPoly t = 0 := ih (fun x hx => h x (by simp [hx]))
    simp [toPoly_cons, ha, ht]

theorem evalAux_eq (z : F) (l : List F) :
    ∀ res v, evalAux z l res v = res + v * (toPoly l).eval z := by
  induction l with
  | nil => intro res v; simp [evalAux, toPoly_nil]
  | cons c t ih =>
    intro res v
    simp only [evalAux, ih, toPoly_cons, eval_add, eval_mul, eval_C, eval_X]
    ring

theorem eval_eq_toPoly_eval (l : List F) (z : F) :
    eval l z = (toPoly l).eval z := by
  simp [eval, evalAux_eq]

theorem eval_cons (a : F) (t : List F) (z : F) :
    eval (a :: t) z = a + z * eval t z := by
  simp only [eval_eq_toPoly_eval, toPoly_cons, eval_add, eval_mul, eval_C,
    eval_X]

theorem trimRev_ne_nil (l : List F) (h : l ≠ []) : trimRev l ≠ [] := by
  induction l with
  | nil => exact absurd rfl h
  | cons a t ih =>
    cases t with
    | nil => simp [trimRev]
    | cons b t' =>
      by_cases ha : a = 0
      · simpa [trimRev, ha] using ih (by simp)
      · simp [trimRev, ha]

theorem trimRev_prefix_zeros (l : List F) :
    ∃ zs, (∀ x ∈ zs, x = (0 : F)) ∧ zs ++ trimRev l = l := by
  induction l with
  | nil => exact ⟨[], by simp, by simp [trimRev]⟩
  | cons a t ih =>
    cases t with
    | nil => exact ⟨[], by simp, by simp [trimRev]⟩
    | cons b t' =>
      by_cases ha : a = 0
      · obtain ⟨zs, hz, he⟩ := ih
        refine ⟨a :: zs, ?_, ?_⟩
        · intro x hx
          rcases List.mem_cons.1 hx with h1 | h2
          · simpa [h1] using ha
          · exact hz x h2
        · simp [trimRev, ha, he]
      · exact ⟨[], by simp, by simp [trimRev, ha]⟩

theorem trim_coefs_suffix_zeros (l : List F) :
    ∃ zs, (∀ x ∈ zs, x = (0 : F)) ∧ trim_coefs l ++ zs = l := by
  obtain ⟨zs, hz, he⟩ := trimRev_prefix_zeros (l.reverse)
  refine ⟨zs.reverse, fun x hx => hz x (List.mem_reverse.1 hx), ?_⟩
  have := congrArg List.reverse he
  simpa [trim_coefs, List.reverse_append] using this

theorem toPoly_trim (l : List F) : toPoly (trim_coefs l) = toPoly l := by
  obtain ⟨zs, hz, he⟩ := trim_coefs_suffix_zeros l
  calc toPoly (trim_coefs l)
      = toPoly (trim_coefs l) + X ^ (trim_coefs l).length * toPoly zs := by
        simp [toPoly_zero_list zs hz]
    _ = toPoly (trim_coefs l ++ zs) := (toPoly_append _ _).symm
    _ = toPoly l := by rw [he]

theorem trim_coefs_ne_nil (l : List F) (h : l ≠ []) : trim_coefs l ≠ [] := by
  have : trimRev l.reverse ≠ [] := trimRev_ne_nil _ (by simpa using h)
  simpa [trim_coefs] using this

theorem trim_coefs_length_le (l : List F) :
    (trim_coefs l).length ≤ l.length := by
  obtain ⟨zs, _, he⟩ := trim_coefs_suffix_zeros l
  have := congrArg List.length he
  simp at this
  omega

theorem eval_trim (l : List F) (z : F) :
    eval (trim_coefs l) z = eval l z := by
  simp [eval_eq_toPoly_eval, toPoly_trim]

theorem getD_eq_get?_getD (l : List F) (i : Nat) (d : F) :
    l.getD i d = (l.get? i).getD d := by
  simp [List.getD_eq_getElem?_getD]

theorem getD_set_ne (l : List F) (i j : Nat) (v : F) (h : i ≠ j) :
    (l.set i v).getD j 0 = l.getD j 0 := by
  simp [List.getD_eq_getElem?_getD, List.getElem?_set_ne h]

theorem getD_set_eq (l : List F) (i : Nat) (v : F) (h : i < l.length) :
    (l.set i v).getD i 0 = v := by
  simp [List.getD_eq_getElem?_getD, List.getElem?_set_eq h]

theorem toPoly_set (l : List F) :
    ∀ (off : Nat) (v : F), off < l.length →
      toPoly (l.set off v) = toPoly l + C (v - l.getD off 0) * X ^ off := by
  induction l with
  | nil => intro off v h; simp at h
  | cons a t ih =>
    intro off v h
    cases off with
    | zero =>
      simp only [List.set, toPoly_cons, List.getD_cons_zero, pow_zero,
        map_sub]
      ring
    | succ o =>
      have ho : o < t.length := by simpa using h
      simp only [List.set, toPoly_cons, ih o v ho, List.getD_cons_succ,
        pow_succ]
      ring

theorem innerLoop_length (qi : F) :
    ∀ (cs rem : List F) (off : Nat),
      (innerLoop qi rem off cs).length = rem.length := by
  intro cs
  induction cs with
  | nil => intro rem off; rfl
  | cons c cs' ih => intro rem off; simp [innerLoop, ih]

theorem innerLoop_toPoly (qi : F) :
    ∀ (cs rem : List F) (off : Nat), off + cs.length ≤ rem.length →
      toPoly (innerLoop qi rem off cs) =
        toPoly rem - C qi * X ^ off * toPoly cs := by
  intro cs
  induction cs with
  | nil => intro rem off _; simp [innerLoop, toPoly_nil]
  | cons c cs' ih =>
    intro rem off h
    have hoff : off < rem.length := by
      simp only [List.length_cons] at h; omega
    have hlen : off + 1 + cs'.length ≤ (rem.set off (rem.getD off 0 - qi * c)).length := by
      simp only [List.length_set]
      simp only [List.length_cons] at h; omega
    rw [show innerLoop qi rem off (c :: cs') =
        innerLoop qi (rem.set off (rem.getD off 0 - qi * c)) (off + 1) cs' from rfl]
    rw [ih _ _ hlen, toPoly_set rem off _ hoff, toPoly_cons]
    have hc : rem.getD off 0 - qi * c - rem.getD off 0 = -(qi * c) := by ring
    rw [hc]
    simp only [map_neg, map_mul, pow_succ]
    ring

theorem innerLoop_getD_lt (qi : F) :
    ∀ (cs rem : List F) (off m : Nat), m < off →
      (innerLoop qi rem off cs).getD m 0 = rem.getD m 0 := by
  intro cs
  induction cs with
  | nil => intro rem off m _; rfl
  | cons c cs' ih =>
    intro rem off m hm
    rw [show innerLoop qi rem off (c :: cs') =
        innerLoop qi (rem.set off (rem.getD off 0 - qi * c)) (off + 1) cs' from rfl]
    rw [ih _ _ _ (by omega), getD_set_ne _ _ _ _ (by omega)]

theorem innerLoop_getD_ge (qi : F) :
    ∀ (cs rem : List F) (off m : Nat), off + cs.length ≤ m →
      (innerLoop qi rem off cs).getD m 0 = rem.getD m 0 := by
  intro cs
  induction cs with
  | nil => intro rem off m _; rfl
  | cons c cs' ih =>
    intro rem off m hm
    simp only [List.length_cons] at hm
    rw [show innerLoop qi rem off (c :: cs') =
        innerLoop qi (rem.set off (rem.getD off 0 - qi * c)) (off + 1) cs' from rfl]
    rw [ih _ _ _ (by omega), getD_set_ne _ _ _ _ (by omega)]

theorem innerLoop_getD_mid (qi : F) :
    ∀ (cs rem : List F) (off m : Nat),
      off ≤ m → m < off + cs.length → m < rem.length →
      (innerLoop qi rem off cs).getD m 0 =
        rem.getD m 0 - qi * cs.getD (m - off) 0 := by
  intro cs
  induction cs with
  | nil => intro rem off m _ hm _; simp only [List.length_nil] at hm; omega
  | cons c cs' ih =>
    intro rem off m h1 h2 h3
    rw [show innerLoop qi rem off (c :: cs') =
        innerLoop qi (rem.set off (rem.getD off 0 - qi * c)) (off + 1) cs' from rfl]
    rcases Nat.eq_or_lt_of_le h1 with he | hlt
    · subst he
      rw [innerLoop_getD_lt qi cs' _ _ _ (by omega),
        getD_set_eq _ _ _ h3]
      simp
    · have h2' : m < (off + 1) + cs'.length := by
        simp only [List.length_cons] at h2; omega
      have h3' : m < (rem.set off (rem.getD off 0 - qi * c)).length := by
        simpa using h3
      rw [ih _ _ _ hlt h2' h3', getD_set_ne _ _ _ _ (by omega)]
      have : m - off = (m - (off + 1)) + 1 := by omega
      rw [this, List.getD_cons_succ]

theorem getD_of_getLast? (l : List F) (b : F) (h : l.getLast? = some b) :
    l.getD (l.length - 1) 0 = b := by
  rw [List.getD_eq_getElem?_getD, ← List.getLast?_eq_getElem?, h]; rfl

theorem getD_replicate_zero (n j : Nat) :
    (List.replicate n (0 : F)).getD j 0 = 0 := by
  rw [List.getD_eq_getElem?_getD]
  rcases lt_or_le j n with h | h
  · simp [List.getElem?_replicate, h]
  · simp [List.getElem?_eq_none
      (by simp; omega : (List.replicate n (0 : F)).length ≤ j)]

theorem drop_all_zero (l : List F) (n : Nat)
    (h : ∀ m, n ≤ m → l.getD m 0 = 0) : ∀ x ∈ l.drop n, x = 0 := by
  intro x hx
  obtain ⟨i, hi, hg⟩ := List.getElem_of_mem hx
  rw [List.getElem_drop] at hg
  have hlt : n + i < l.length := by simp at hi; omega
  have := h (n + i) (by omega)
  rw [List.getD_eq_getElem?_getD, List.getElem?_eq_getElem hlt] at this
  simpa [hg] using this

theorem outerLoop_spec (dc : List F) (bl : F) (hbl : dc.getLast? = some bl)
    (hbl0 : bl ≠ 0) :
    ∀ (c : Nat) (rem quo : List F),
      c + dc.length ≤ rem.length + 1 →
      c ≤ quo.length →
      (∀ j, j < c → quo.getD j 0 = 0) →
      (∀ m, c + dc.length - 1 ≤ m → rem.getD m 0 = 0) →
      (outerLoop dc bl⁻¹ c (rem, quo)).1.length = rem.length ∧
      (outerLoop dc bl⁻¹ c (rem, quo)).2.length = quo.length ∧
      toPoly (outerLoop dc bl⁻¹ c (rem, quo)).1 +
          toPoly (outerLoop dc bl⁻¹ c (rem, quo)).2 * toPoly dc =
        toPoly rem + toPoly quo * toPoly dc ∧
      (∀ m, dc.length - 1 ≤ m →
        (outerLoop dc bl⁻¹ c (rem, quo)).1.getD m 0 = 0) := by
  have hdc : dc ≠ [] := by
    intro h; rw [h] at hbl; simp at hbl
  have hL : 1 ≤ dc.length := by
    cases dc with
    | nil => exact absurd rfl hdc
    | cons _ _ => simp
  intro c
  induction c with
  | zero =>
    intro rem quo _ _ _ hz
    refine ⟨rfl, rfl, rfl, ?_⟩
    intro m hm
    exact hz m (by omega)
  | succ c ih =>
    intro rem quo hb hq hq0 hz
    have step : outerLoop dc bl⁻¹ (c + 1) (rem, quo) =
        outerLoop dc bl⁻¹ c
          (innerLoop (bl⁻¹ * rem.getD (c + dc.length - 1) 0) rem c dc,
           quo.set c (bl⁻¹ * rem.getD (c + dc.length - 1) 0)) := rfl
    set qi := bl⁻¹ * rem.getD (c + dc.length - 1) 0 with hqi
    set rem' := innerLoop qi rem c dc with hrem'
    set quo' := quo.set c qi with hquo'
    have hlen' : rem'.length = rem.length := innerLoop_length qi dc rem c
    have hcl : c + dc.length ≤ rem.length := by omega
    have hb' : c + dc.length ≤ rem'.length + 1 := by omega
    have hq' : c ≤ quo'.length := by
      simp only [hquo', List.length_set]; omega
    have hq0' : ∀ j, j < c → quo'.getD j 0 = 0 := by
      intro j hj
      rw [hquo', getD_set_ne _ _ _ _ (by omega)]
      exact hq0 j (by omega)
    have hz' : ∀ m, c + dc.length - 1 ≤ m → rem'.getD m 0 = 0 := by
      intro m hm
      rcases lt_or_le m (c + dc.length) with hlt | hge
      · have hme : m = c + dc.length - 1 := by omega
        subst hme
        have hmlt : c + dc.length - 1 < rem.length := by omega
        rw [hrem', innerLoop_getD_mid qi dc rem c _ (by omega) (by omega) hmlt]
        have harg : c + dc.length - 1 - c = dc.length - 1 := by omega
        rw [harg, getD_of_getLast? dc bl hbl, hqi]
        field_simp
      · rw [hrem', innerLoop_getD_ge qi dc rem c m hge]
        exact hz m (by omega)
    obtain ⟨l1, l2, hpoly, hzf⟩ := ih rem' quo' hb' hq' hq0' hz'
    rw [step]
    refine ⟨by rw [l1, hlen'], by rw [l2, hquo', List.length_set], ?_, hzf⟩
    rw [hpoly]
    have hip : toPoly rem' = toPoly rem - C qi * X ^ c * toPoly dc :=
      innerLoop_toPoly qi dc rem c hcl
    have hqp : toPoly quo' = toPoly quo + C qi * X ^ c := by
      rw [hquo', toPoly_set quo c qi (by omega), hq0 c (by omega)]
      ring_nf
    rw [hip, hqp]
    ring

theorem toPoly_zeroPoly : toPoly (zeroPoly : List F) = 0 := by
  simp [zeroPoly, from_coefs, trim_coefs, trimRev, toPoly]

theorem trim_single (a : F) : trim_coefs [a] = [a] := rfl

theorem div_rem_spec (p d : List F) (hd : d ≠ []) (hlast : d.getLastD 0 ≠ 0) :
    ∃ q r, div_rem p d = some (q, r) ∧
      toPoly q * toPoly d + toPoly r = toPoly p ∧
      r.length ≤ max 1 (d.length - 1) ∧
      (p ≠ [] → r ≠ []) ∧
      (p ≠ [] → d.length = 1 → r = [0]) ∧
      q ≠ [] ∧ q.length ≤ max 1 (p.length + 1 - d.length) := by
  obtain ⟨b, hb⟩ : ∃ b, d.getLast? = some b := by
    cases hgl : d.getLast? with
    | none => exact absurd (List.getLast?_eq_none_iff.1 hgl) hd
    | some b => exact ⟨b, rfl⟩
  have hbv : d.getLastD 0 = b := by
    rw [List.getLastD_eq_getLast?, hb]; rfl
  have hb0 : b ≠ 0 := hbv ▸ hlast
  have hL : 1 ≤ d.length := List.length_pos.2 hd
  rcases lt_or_le p.length d.length with hlk | hlk
  · have heq : div_rem p d = some (zeroPoly, p) := by
      simp only [div_rem]
      rw [if_pos hlk]
    have hzp : (zeroPoly : List F) = [0] := rfl
    refine ⟨zeroPoly, p, heq, ?_, by omega, fun h => h, ?_,
      by rw [hzp]; simp,
      by rw [hzp]; simpa using le_max_left 1 (p.length + 1 - d.length)⟩
    · rw [toPoly_zeroPoly]; ring
    · intro hp h1
      exact absurd (List.length_eq_zero.1 (by omega)) hp
  · have hk1 : 1 ≤ p.length := by omega
    set n := p.length - d.length + 1 with hn
    have hnd : n + d.length - 1 = p.length := by omega
    obtain ⟨L1, L2, HP, HZ⟩ := outerLoop_spec d b hb hb0 n p
      (List.replicate n 0) (by omega) (by simp)
      (fun j _ => getD_replicate_zero n j)
      (fun m hm => List.getD_eq_default p 0 (by omega))
    set st := outerLoop d b⁻¹ n (p, List.replicate n 0) with hst
    set remT := st.1.take (st.1.length - n) with hremT
    set rem2 := if remT.isEmpty then [0] else remT with hrem2
    have heq : div_rem p d =
        some (trim_coefs (from_coefs st.2), trim_coefs (from_coefs rem2)) := by
      simp only [div_rem, hb]
      rw [if_neg (by omega : ¬ d.length > p.length), if_neg hb0]
    have hcnt : st.1.length - n = d.length - 1 := by
      rw [L1]; omega
    have hTlen : remT.length = d.length - 1 := by
      rw [hremT, List.length_take, hcnt, L1]
      omega
    have hdz : toPoly (st.1.drop (st.1.length - n)) = 0 := by
      refine toPoly_zero_list _ (drop_all_zero st.1 _ ?_)
      intro m hm
      exact HZ m (by omega)
    have htp1 : toPoly st.1 = toPoly remT := by
      conv_lhs => rw [← List.take_append_drop (st.1.length - n) st.1]
      rw [toPoly_append, hdz]
      simp [hremT]
    have htp2 : toPoly rem2 = toPoly st.1 := by
      rw [hrem2]
      by_cases he : remT.isEmpty
      · rw [if_pos he, htp1, List.isEmpty_iff.1 he]
        simp [toPoly]
      · rw [if_neg he, htp1]
    have hrepl : toPoly (List.replicate n (0 : F)) = 0 :=
      toPoly_zero_list _ (fun x hx => List.eq_of_mem_replicate hx)
    have hr2ne : rem2 ≠ [] := by
      rw [hrem2]
      by_cases he : remT.isEmpty
      · rw [if_pos he]; simp
      · rw [if_neg he]
        simpa [List.isEmpty_iff] using he
    have hr2len : rem2.length ≤ max 1 (d.length - 1) := by
      rw [hrem2]
      by_cases he : remT.isEmpty
      · rw [if_pos he]
        simpa using le_max_left 1 (d.length - 1)
      · rw [if_neg he, hTlen]
        exact le_max_right 1 (d.length - 1)
    have hq2len : st.2.length = n := by
      rw [L2]; simp
    have hq2ne : st.2 ≠ [] := by
      intro he
      rw [he] at hq2len
      simp at hq2len
      omega
    refine ⟨_, _, heq, ?_, ?_, fun _ => ?_, fun _ hd1 => ?_,
      trim_coefs_ne_nil _ (trim_coefs_ne_nil _ hq2ne), ?_⟩
    · rw [from_coefs, from_coefs, toPoly_trim, toPoly_trim, toPoly_trim,
        toPoly_trim, htp2]
      rw [hrepl, zero_mul, add_zero] at HP
      rw [← HP]
      ring
    · calc (trim_coefs (from_coefs rem2)).length
          ≤ (from_coefs rem2).length := trim_coefs_length_le _
        _ ≤ rem2.length := trim_coefs_length_le _
        _ ≤ max 1 (d.length - 1) := hr2len
    · exact trim_coefs_ne_nil _ (trim_coefs_ne_nil _ hr2ne)
    · have hT0 : remT = [] := by
        have : remT.length = 0 := by omega
        exact List.length_eq_zero.1 this
      have : rem2 = [0] := by
        rw [hrem2, hT0]
        rfl
      rw [this]
      rfl
    · calc (trim_coefs (from_coefs st.2)).length
          ≤ (from_coefs st.2).length := trim_coefs_length_le _
        _ ≤ st.2.length := trim_coefs_length_le _
        _ ≤ max 1 (p.length + 1 - d.length) := by
            rw [hq2len]; omega

theorem toPoly_map_neg (l : List F) :
    toPoly (l.map (fun x => -x)) = -toPoly l := by
  induction l with
  | nil => simp [toPoly]
  | cons a t ih => simp [toPoly_cons, ih]; ring

theorem toPoly_sub_body :
    ∀ (a b : List F),
      toPoly (if a.length < b.length then
          List.zipWith (· - ·) a b ++ (b.drop a.length).map (fun x => -x)
        else List.zipWith (· - ·) a b ++ a.drop b.length) =
      toPoly a - toPoly b := by
  intro a
  induction a with
  | nil =>
    intro b
    cases b with
    | nil => simp [toPoly]
    | cons y u =>
      rw [if_pos (by simp)]
      simp only [List.zipWith_nil_left, List.nil_append, List.length_nil,
        List.drop_zero, toPoly_map_neg, toPoly_nil]
      ring
  | cons x t ih =>
    intro b
    cases b with
    | nil =>
      rw [if_neg (by simp)]
      simp [toPoly_nil]
    | cons y u =>
      have hz : List.zipWith (· - ·) (x :: t) (y :: u) =
          (x - y) :: List.zipWith (· - ·) t u := rfl
      have hcond : (x :: t).length < (y :: u).length ↔ t.length < u.length := by
        simp
      by_cases hc : t.length < u.length
      · rw [if_pos (hcond.2 hc), hz]
        have hdrop : (y :: u).drop (x :: t).length = u.drop t.length := rfl
        rw [hdrop, List.cons_append, toPoly_cons]
        have := ih u
        rw [if_pos hc] at this
        rw [this, toPoly_cons, toPoly_cons, map_sub]
        ring
      · rw [if_neg (fun h => hc (hcond.1 h)), hz]
        have hdrop : (x :: t).drop (y :: u).length = t.drop u.length := rfl
        rw [hdrop, List.cons_append, toPoly_cons]
        have := ih u
        rw [if_neg hc] at this
        rw [this, toPoly_cons, toPoly_cons, map_sub]
        ring

theorem toPoly_sub (a b : List F) :
    toPoly (sub a b) = toPoly a - toPoly b := by
  rw [sub, toPoly_trim, toPoly_sub_body]

theorem toPoly_add_body :
    ∀ (a b : List F),
      toPoly (if a.length < b.length then
          List.zipWith (· + ·) a b ++ b.drop a.length
        else List.zipWith (· + ·) a b ++ a.drop b.length) =
      toPoly a + toPoly b := by
  intro a
  induction a with
  | nil =>
    intro b
    cases b with
    | nil => simp [toPoly]
    | cons y u =>
      rw [if_pos (by simp)]
      simp [toPoly_nil]
  | cons x t ih =>
    intro b
    cases b with
    | nil =>
      rw [if_neg (by simp)]
      simp [toPoly_nil]
    | cons y u =>
      have hz : List.zipWith (· + ·) (x :: t) (y :: u) =
          (x + y) :: List.zipWith (· + ·) t u := rfl
      have hcond : (x :: t).length < (y :: u).length ↔ t.length < u.length := by
        simp
      by_cases hc : t.length < u.length
      · rw [if_pos (hcond.2 hc), hz]
        have hdrop : (y :: u).drop (x :: t).length = u.drop t.length := rfl
        rw [hdrop, List.cons_append, toPoly_cons]
        have := ih u
        rw [if_pos hc] at this
        rw [this, toPoly_cons, toPoly_cons, map_add]
        ring
      · rw [if_neg (fun h => hc (hcond.1 h)), hz]
        have hdrop : (x :: t).drop (y :: u).length = t.drop u.length := rfl
        rw [hdrop, List.cons_append, toPoly_cons]
        have := ih u
        rw [if_neg hc] at this
        rw [this, toPoly_cons, toPoly_cons, map_add]
        ring

theorem toPoly_add (a b : List F) :
    toPoly (add a b) = toPoly a + toPoly b := by
  rw [add, toPoly_trim, toPoly_add_body]

theorem trimRev_headD (m : List F) (h : m ≠ []) :
    (trimRev m).length = 1 ∨ (trimRev m).headD 0 ≠ 0 := by
  induction m with
  | nil => exact absurd rfl h
  | cons a t ih =>
    cases t with
    | nil => left; rfl
    | cons b t' =>
      by_cases ha : a = 0
      · have := ih (by simp)
        simpa [trimRev, ha] using this
      · right
        simp [trimRev, ha]

theorem trim_coefs_canonical (l : List F) (h : l ≠ []) :
    canonicalP (trim_coefs l) := by
  have hrev : l.reverse ≠ [] := by simpa using h
  rcases trimRev_headD l.reverse hrev with h1 | h2
  · left
    simp [trim_coefs, h1]
  · right
    rw [trim_coefs, List.getLastD_eq_getLast?, List.getLast?_reverse]
    rwa [List.headD_eq_head?_getD] at h2

theorem eval_eq_sum (l : List F) (z : F) :
    eval l z = ∑ i ∈ Finset.range l.length, l.getD i 0 * z ^ i := by
  induction l with
  | nil => simp [eval, evalAux]
  | cons a t ih =>
    rw [eval_cons, ih, List.length_cons, Finset.sum_range_succ']
    simp only [List.getD_cons_succ, List.getD_cons_zero, pow_zero, mul_one]
    rw [Finset.mul_sum, add_comm]
    congr 1
    refine Finset.sum_congr rfl fun i _ => ?_
    ring

end PolyLemmas

section KZGLemmas

variable {F : Type} [Field F] [DecidableEq F]
variable {G1 : Type} [AddCommGroup G1] [Module F G1]
variable {G2 : Type}

theorem zipWith_take_right (f : F → G1 → G1) :
    ∀ (p : List F) (τ : List G1),
      List.zipWith f p (τ.take p.length) = List.zipWith f p τ := by
  intro p
  induction p with
  | nil => intro τ; simp
  | cons x t ih =>
    intro τ
    cases τ with
    | nil => simp
    | cons s τ' => simp [ih]

theorem msmv_nil_right (p : List F) : msmv p ([] : List G1) = 0 := by
  cases p <;> simp [msmv]

theorem msmv_append (a b : List F) :
    ∀ τ : List G1, msmv (a ++ b) τ = msmv a τ + msmv b (τ.drop a.length) := by
  induction a with
  | nil => intro τ; simp [msmv]
  | cons x t ih =>
    intro τ
    cases τ with
    | nil => simp [msmv_nil_right]
    | cons s τ' =>
      simp only [List.cons_append, msmv, List.zipWith_cons_cons,
        List.sum_cons, List.length_cons, List.drop_succ_cons]
      have := ih τ'
      simp only [msmv] at this
      rw [this, add_assoc]

theorem msmv_zero_list (a : List F) (h : ∀ x ∈ a, x = 0) :
    ∀ τ : List G1, msmv a τ = 0 := by
  induction a with
  | nil => intro τ; simp [msmv]
  | cons x t ih =>
    intro τ
    cases τ with
    | nil => simp [msmv_nil_right]
    | cons s τ' =>
      have hx : x = 0 := h x (by simp)
      have ht := ih (fun y hy => h y (by simp [hy])) τ'
      simp only [msmv, List.zipWith_cons_cons, List.sum_cons] at ht ⊢
      simp [hx, ht]

theorem msmv_trim (l : List F) (τ : List G1) :
    msmv (trim_coefs l) τ = msmv l τ := by
  obtain ⟨zs, hz, he⟩ := trim_coefs_suffix_zeros l
  conv_rhs => rw [← he]
  rw [msmv_append, msmv_zero_list zs hz, add_zero]

theorem msmv_add_body :
    ∀ (a b : List F) (τ : List G1),
      msmv (if a.length < b.length then
          List.zipWith (· + ·) a b ++ b.drop a.length
        else List.zipWith (· + ·) a b ++ a.drop b.length) τ =
      msmv a τ + msmv b τ := by
  intro a
  induction a with
  | nil =>
    intro b τ
    cases b with
    | nil => simp [msmv]
    | cons y u => rw [if_pos (by simp)]; simp [msmv]
  | cons x t ih =>
    intro b τ
    cases b with
    | nil =>
      rw [if_neg (by simp)]
      simp [msmv]
    | cons y u =>
      have hcond : (x :: t).length < (y :: u).length ↔ t.length < u.length := by
        simp
      cases τ with
      | nil =>
        by_cases hc : t.length < u.length
        · rw [if_pos (hcond.2 hc)]; simp [msmv_nil_right]
        · rw [if_neg (fun h => hc (hcond.1 h))]; simp [msmv_nil_right]
      | cons s τ' =>
        have hz : List.zipWith (· + ·) (x :: t) (y :: u) =
            (x + y) :: List.zipWith (· + ·) t u := rfl
        by_cases hc : t.length < u.length
        · rw [if_pos (hcond.2 hc), hz,
            show ((y :: u).drop (x :: t).length = u.drop t.length) from rfl,
            List.cons_append]
          have := ih u τ'
          rw [if_pos hc] at this
          simp only [msmv, List.zipWith_cons_cons, List.sum_cons] at this ⊢
          rw [this, add_smul]
          abel
        · rw [if_neg (fun h => hc (hcond.1 h)), hz,
            show ((x :: t).drop (y :: u).length = t.drop u.length) from rfl,
            List.cons_append]
          have := ih u τ'
          rw [if_neg hc] at this
          simp only [msmv, List.zipWith_cons_cons, List.sum_cons] at this ⊢
          rw [this, add_smul]
          abel

theorem msmv_add (a b : List F) (τ : List G1) :
    msmv (add a b) τ = msmv a τ + msmv b τ := by
  rw [add, msmv_trim, msmv_add_body]

theorem msmv_map_mul (lam : F) :
    ∀ (l : List F) (τ : List G1),
      msmv (l.map (fun c => c * lam)) τ = lam • msmv l τ := by
  intro l
  induction l with
  | nil => intro τ; simp [msmv]
  | cons x t ih =>
    intro τ
    cases τ with
    | nil => simp [msmv_nil_right]
    | cons s τ' =>
      simp only [List.map_cons, msmv, List.zipWith_cons_cons, List.sum_cons]
        at ih ⊢
      rw [ih, smul_add, mul_comm, mul_smul]

theorem msmv_mul_scalar (l : List F) (lam : F) (τ : List G1) :
    msmv (mul_scalar l lam) τ = lam • msmv l τ := by
  rw [mul_scalar, msmv_trim, msmv_map_mul]

theorem msmv_sum_range :
    ∀ (p : List F) (τ : List G1), p.length ≤ τ.length →
      msmv p τ = ∑ i ∈ Finset.range p.length, p.getD i 0 • τ.getD i 0 := by
  intro p
  induction p with
  | nil => intro τ _; simp [msmv]
  | cons x t ih =>
    intro τ h
    cases τ with
    | nil => simp at h
    | cons s τ' =>
      simp only [msmv, List.zipWith_cons_cons, List.sum_cons,
        List.length_cons]
      rw [Finset.sum_range_succ']
      simp only [List.getD_cons_succ, List.getD_cons_zero]
      have := ih τ' (by simpa using h)
      simp only [msmv] at this
      rw [this, add_comm]

theorem degree_add_one (p : List F) (hp : p ≠ []) :
    degree p + 1 = p.length := by
  have : p.length ≠ 0 := by simpa using hp
  simp [degree, this]
  omega

theorem commit_ok (srs : KZGCommitmentScheme G1 G2) (p : List F)
    (hp : p ≠ []) (hlen : p.length ≤ srs.public_parameter_group_1.length) :
    commit srs p = some (.ok ⟨msmv p srs.public_parameter_group_1⟩) := by
  have hd1 : degree p + 1 = p.length := degree_add_one p hp
  rw [commit]
  rw [if_neg (by omega)]
  have hlen2 : (srs.public_parameter_group_1.take (degree p + 1)).length
      = p.length := by
    rw [List.length_take]
    omega
  rw [msm, if_pos hlen2, hd1, zipWith_take_right]
  rfl

theorem commit_ok_inv (srs : KZGCommitmentScheme G1 G2) (p : List F)
    (c : KZGCommitment G1) (h : commit srs p = some (.ok c)) :
    p ≠ [] ∧ p.length ≤ srs.public_parameter_group_1.length ∧
      c = ⟨msmv p srs.public_parameter_group_1⟩ := by
  by_cases hgt : degree p + 1 > srs.public_parameter_group_1.length
  · rw [commit, if_pos hgt] at h
    simp at h
  · rw [commit, if_neg hgt, msm] at h
    by_cases hlen2 : (srs.public_parameter_group_1.take (degree p + 1)).length
        = p.length
    · rw [if_pos hlen2] at h
      rw [List.length_take] at hlen2
      have hp : p ≠ [] := by
        intro he
        subst he
        simp only [degree, List.length_nil, if_pos rfl] at hlen2 hgt
        omega
      have hd1 : degree p + 1 = p.length := degree_add_one p hp
      have hle : p.length ≤ srs.public_parameter_group_1.length := by omega
      refine ⟨hp, hle, ?_⟩
      simp only [Option.some.injEq, Except.ok.injEq] at h
      rw [← h, hd1, zipWith_take_right]
      rfl
    · rw [if_neg hlen2] at h
      simp at h

theorem msmv_geom (s : F) :
    ∀ (p : List F) (m : Nat) (g : G1), p.length ≤ m →
      msmv p ((List.range m).map (fun i => s ^ i • g)) = eval p s • g := by
  intro p
  induction p with
  | nil => intro m g _; simp [msmv, eval, evalAux]
  | cons x t ih =>
    intro m g h
    cases m with
    | zero => simp at h
    | succ m' =>
      rw [List.range_succ_eq_map]
      have hmap : (List.map Nat.succ (List.range m')).map
          (fun i => s ^ i • g) =
          (List.range m').map (fun i => s ^ i • (s • g)) := by
        rw [List.map_map]
        refine List.map_congr_left ?_
        intro i _
        simp only [Function.comp_apply, Nat.succ_eq_add_one]
        rw [pow_succ, mul_smul]
      rw [List.map_cons, hmap]
      simp only [msmv, List.zipWith_cons_cons, List.sum_cons, pow_zero,
        one_smul]
      have := ih m' (s • g) (by simpa using h)
      simp only [msmv] at this
      rw [this, eval_cons, smul_smul, add_smul, mul_comm]

theorem get?_eq_some_getD (l : List G1) (i : Nat) (h : i < l.length) :
    l.get? i = some (l.getD i 0) := by
  rw [List.get?_eq_getElem?, List.getElem?_eq_getElem h,
    List.getD_eq_getElem l 0 h]

theorem blindLoop_spec (τ : List G1) (zd : Nat) :
    ∀ (bs : List F) (i : Nat) (c : G1),
      (∀ j, j < bs.length → i + j < τ.length ∧ zd + (i + j) < τ.length) →
      blindLoop τ zd c bs i =
        some (c + ∑ j ∈ Finset.range bs.length, bs.getD j 0 • τ.getD (i + j) 0
          - ∑ j ∈ Finset.range bs.length, bs.getD j 0 • τ.getD (zd + (i + j)) 0) := by
  intro bs
  induction bs with
  | nil =>
    intro i c _
    simp [blindLoop]
  | cons b bs' ih =>
    intro i c hb
    have h0 := hb 0 (by simp)
    simp only [Nat.add_zero] at h0
    have hstep : blindLoop τ zd c (b :: bs') i =
        blindLoop τ zd
          (c + b • τ.getD i 0 + (-b) • τ.getD (zd + i) 0) bs' (i + 1) := by
      rw [show blindLoop τ zd c (b :: bs') i =
          (match τ.get? i with
          | none => none
          | some t1 =>
            match τ.get? (zd + i) with
            | none => none
            | some t2 => blindLoop τ zd (c + b • t1 + (-b) • t2) bs' (i + 1))
          from rfl]
      rw [get?_eq_some_getD τ i h0.1, get?_eq_some_getD τ (zd + i) h0.2]
    rw [hstep]
    have hb' : ∀ j, j < bs'.length →
        (i + 1) + j < τ.length ∧ zd + ((i + 1) + j) < τ.length := by
      intro j hj
      have := hb (j + 1) (by simpa using Nat.succ_lt_succ hj)
      constructor
      · have := this.1; omega
      · have := this.2
        have harg : zd + (i + 1 + j) = zd + (i + (j + 1)) := by omega
        rw [harg]
        exact this
    rw [ih (i + 1) _ hb']
    congr 1
    rw [List.length_cons, Finset.sum_range_succ', Finset.sum_range_succ']
    simp only [List.getD_cons_succ, List.getD_cons_zero, Nat.add_zero]
    have hs1 : ∑ j ∈ Finset.range bs'.length,
        bs'.getD j 0 • τ.getD (i + 1 + j) 0 =
        ∑ j ∈ Finset.range bs'.length,
          bs'.getD j 0 • τ.getD (i + (j + 1)) 0 := by
      refine Finset.sum_congr rfl fun j _ => ?_
      have harg : i + 1 + j = i + (j + 1) := by omega
      rw [harg]
    have hs2 : ∑ j ∈ Finset.range bs'.length,
        bs'.getD j 0 • τ.getD (zd + (i + 1 + j)) 0 =
        ∑ j ∈ Finset.range bs'.length,
          bs'.getD j 0 • τ.getD (zd + (i + (j + 1))) 0 := by
      refine Finset.sum_congr rfl fun j _ => ?_
      have harg : zd + (i + 1 + j) = zd + (i + (j + 1)) := by omega
      rw [harg]
    rw [hs1, hs2, neg_smul]
    abel

end KZGLemmas

section SerdeLemmas

variable {P1 P2 P : Type}

theorem u32_round_trip (x : Nat) (h : x < 2 ^ 32) :
    u32_from_le_bytes (x % 256) (x / 256 % 256) (x / 256 ^ 2 % 256)
      (x / 256 ^ 3 % 256) = x := by
  have h2 : (256 : Nat) ^ 2 = 65536 := by norm_num
  have h3 : (256 : Nat) ^ 3 = 16777216 := by norm_num
  have h32 : (2 : Nat) ^ 32 = 4294967296 := by norm_num
  simp only [u32_from_le_bytes, h2, h3]
  rw [h32] at h
  omega

theorem flatten_map_length (e : P → List Nat) (n : Nat) :
    ∀ l : List P, (∀ g ∈ l, (e g).length = n) →
      ((l.map e).flatten).length = n * l.length := by
  intro l
  induction l with
  | nil => intro _; simp
  | cons g gs ih =>
    intro h
    simp only [List.map_cons, List.flatten_cons, List.length_append,
      List.length_cons]
    rw [ih (fun g' hg' => h g' (by simp [hg'])), h g (by simp)]
    ring

theorem readPoints_encode (dec : List Nat → Option P) (e : P → List Nat)
    (n : Nat) :
    ∀ (l : List P) (i : Nat) (pre rest : List Nat),
      pre.length = n * i →
      (∀ g ∈ l, (e g).length = n ∧ dec (e g) = some g) →
      readPoints dec (pre ++ (l.map e).flatten ++ rest) n i l.length =
        some (.ok l) := by
  intro l
  induction l with
  | nil => intro i pre rest _ _; rfl
  | cons g gs ih =>
    intro i pre rest hpre h
    have hg := h g (by simp)
    have hassoc : pre ++ ((g :: gs).map e).flatten ++ rest =
        (pre ++ e g) ++ (gs.map e).flatten ++ rest := by
      simp [List.append_assoc]
    rw [hassoc]
    set B := (pre ++ e g) ++ (gs.map e).flatten ++ rest with hB
    have hlenB : B.length =
        pre.length + n + ((gs.map e).flatten.length + rest.length) := by
      simp [hB, hg.1]
      omega
    have hpre' : (pre ++ e g).length = n * (i + 1) := by
      simp [hg.1, hpre]
      ring
    have hrp : readPoint B n i = some (e g) := by
      rw [readPoint, if_pos (by rw [hlenB, hpre, Nat.mul_succ]; omega)]
      congr 1
      have hdrop : B.drop (n * i) = e g ++ ((gs.map e).flatten ++ rest) := by
        rw [hB, ← hpre]
        have : pre ++ e g ++ (gs.map e).flatten ++ rest =
            pre ++ (e g ++ ((gs.map e).flatten ++ rest)) := by
          simp [List.append_assoc]
        rw [this, List.drop_left]
      rw [hdrop, List.take_left' hg.1]
    rw [show (g :: gs).length = gs.length + 1 from rfl]
    rw [show readPoints dec B n i (gs.length + 1) =
        (match readPoint B n i with
         | none => none
         | some s =>
           match dec s with
           | none => some (.error KZGError.DeserializationError)
           | some g' =>
             match readPoints dec B n (i + 1) gs.length with
             | none => none
             | some (.error e') => some (.error e')
             | some (.ok gs') => some (.ok (g' :: gs'))) from rfl]
    simp only [hrp, hg.2,
      ih (i + 1) (pre ++ e g) rest hpre' (fun g' h' => h g' (by simp [h']))]

theorem readPoints_error_of_fail (dec : List Nat → Option P)
    (buf : List Nat) (n : Nat) :
    ∀ (cnt i : Nat),
      (∀ j, j < cnt → n * (i + j + 1) ≤ buf.length) →
      (∃ j, j < cnt ∧ dec ((buf.drop (n * (i + j))).take n) = none) →
      readPoints dec buf n i cnt =
        some (.error KZGError.DeserializationError) := by
  intro cnt
  induction cnt with
  | zero =>
    intro i _ hex
    obtain ⟨j, hj, _⟩ := hex
    omega
  | succ c ih =>
    intro i hbnd hex
    have hrp : readPoint buf n i = some ((buf.drop (n * i)).take n) := by
      rw [readPoint, if_pos]
      have := hbnd 0 (by omega)
      have harg : i + 0 + 1 = i + 1 := by omega
      rwa [harg] at this
    rw [show readPoints dec buf n i (c + 1) =
        (match readPoint buf n i with
         | none => none
         | some s =>
           match dec s with
           | none => some (.error KZGError.DeserializationError)
           | some g' =>
             match readPoints dec buf n (i + 1) c with
             | none => none
             | some (.error e') => some (.error e')
             | some (.ok gs') => some (.ok (g' :: gs'))) from rfl]
    by_cases hd0 : dec ((buf.drop (n * i)).take n) = none
    · simp only [hrp, hd0]
    · obtain ⟨g, hg⟩ := Option.ne_none_iff_exists'.mp hd0
      have hex' : ∃ j, j < c ∧
          dec ((buf.drop (n * ((i + 1) + j))).take n) = none := by
        obtain ⟨j, hj, hfail⟩ := hex
        cases j with
        | zero =>
          exact absurd (by simpa using hfail) hd0
        | succ j' =>
          refine ⟨j', by omega, ?_⟩
          have harg : (i + 1) + j' = i + (j' + 1) := by omega
          rw [harg]
          exact hfail
      have hbnd' : ∀ j, j < c → n * ((i + 1) + j + 1) ≤ buf.length := by
        intro j hj
        have := hbnd (j + 1) (by omega)
        have harg : i + (j + 1) + 1 = (i + 1) + j + 1 := by omega
        rwa [harg] at this
      simp only [hrp, hg, ih (i + 1) hbnd' hex']

theorem readPoints_ok_of_all (dec : List Nat → Option P)
    (buf : List Nat) (n : Nat) :
    ∀ (cnt i : Nat),
      (∀ j, j < cnt → n * (i + j + 1) ≤ buf.length) →
      (∀ j, j < cnt → ∃ g, dec ((buf.drop (n * (i + j))).take n) = some g) →
      ∃ gs, readPoints dec buf n i cnt = some (.ok gs) := by
  intro cnt
  induction cnt with
  | zero => intro i _ _; exact ⟨[], rfl⟩
  | succ c ih =>
    intro i hbnd hok
    have hrp : readPoint buf n i = some ((buf.drop (n * i)).take n) := by
      rw [readPoint, if_pos]
      have := hbnd 0 (by omega)
      have harg : i + 0 + 1 = i + 1 := by omega
      rwa [harg] at this
    obtain ⟨g, hg⟩ := hok 0 (by omega)
    have hg' : dec ((buf.drop (n * i)).take n) = some g := by
      have harg : i + 0 = i := by omega
      rwa [harg] at hg
    have hbnd' : ∀ j, j < c → n * ((i + 1) + j + 1) ≤ buf.length := by
      intro j hj
      have := hbnd (j + 1) (by omega)
      have harg : i + (j + 1) + 1 = (i + 1) + j + 1 := by omega
      rwa [harg] at this
    have hok' : ∀ j, j < c →
        ∃ g', dec ((buf.drop (n * ((i + 1) + j))).take n) = some g' := by
      intro j hj
      obtain ⟨g', hgj⟩ := hok (j + 1) (by omega)
      refine ⟨g', ?_⟩
      have harg : (i + 1) + j = i + (j + 1) := by omega
      rwa [harg]
    obtain ⟨gs, hgs⟩ := ih (i + 1) hbnd' hok'
    refine ⟨g :: gs, ?_⟩
    rw [show readPoints dec buf n i (c + 1) =
        (match readPoint buf n i with
         | none => none
         | some s =>
           match dec s with
           | none => some (.error KZGError.DeserializationError)
           | some g' =>
             match readPoints dec buf n (i + 1) c with
             | none => none
             | some (.error e') => some (.error e')
             | some (.ok gs') => some (.ok (g' :: gs'))) from rfl]
    simp only [hrp, hg', hgs]

end SerdeLemmas

section ProveLemmas

variable {F : Type} [Field F] [DecidableEq F]

open Polynomial

theorem trim_coefs_pair (a b : F) (hb : b ≠ 0) : trim_coefs [a, b] = [a, b] := by
  rw [trim_coefs]
  rw [show ([a, b] : List F).reverse = [b, a] from by simp]
  rw [show trimRev [b, a] = if b = 0 then trimRev [a] else [b, a] from rfl]
  rw [if_neg hb]
  simp

theorem sub_length_le (a b : List F) :
    (sub a b).length ≤ max a.length b.length := by
  rw [sub]
  refine le_trans (trim_coefs_length_le _) ?_
  by_cases hc : a.length < b.length
  · rw [if_pos hc, List.length_append, List.length_zipWith,
      List.length_map, List.length_drop]
    omega
  · rw [if_neg hc, List.length_append, List.length_zipWith,
      List.length_drop]
    omega

theorem sub_ne_nil (a b : List F) (hb : b ≠ []) : sub a b ≠ [] := by
  rw [sub]
  apply trim_coefs_ne_nil
  have hbl : 1 ≤ b.length := List.length_pos.2 hb
  by_cases hc : a.length < b.length
  · rw [if_pos hc]
    intro he
    have hlen := congrArg List.length he
    rw [List.length_append, List.length_zipWith, List.length_map,
      List.length_drop, List.length_nil] at hlen
    omega
  · rw [if_neg hc]
    intro he
    have hlen := congrArg List.length he
    rw [List.length_append, List.length_zipWith, List.length_drop,
      List.length_nil] at hlen
    omega

theorem add_length_le (a b : List F) :
    (add a b).length ≤ max a.length b.length := by
  rw [add]
  refine le_trans (trim_coefs_length_le _) ?_
  by_cases hc : a.length < b.length
  · rw [if_pos hc, List.length_append, List.length_zipWith,
      List.length_drop]
    omega
  · rw [if_neg hc, List.length_append, List.length_zipWith,
      List.length_drop]
    omega

theorem add_ne_nil (a b : List F) (ha : a ≠ []) : add a b ≠ [] := by
  rw [add]
  apply trim_coefs_ne_nil
  have hal : 1 ≤ a.length := List.length_pos.2 ha
  by_cases hc : a.length < b.length
  · rw [if_pos hc]
    intro he
    have hlen := congrArg List.length he
    rw [List.length_append, List.length_zipWith, List.length_drop,
      List.length_nil] at hlen
    omega
  · rw [if_neg hc]
    intro he
    have hlen := congrArg List.length he
    rw [List.length_append, List.length_zipWith, List.length_drop,
      List.length_nil] at hlen
    omega

theorem mul_scalar_ne_nil (a : List F) (lam : F) (ha : a ≠ []) :
    mul_scalar a lam ≠ [] := by
  rw [mul_scalar]
  apply trim_coefs_ne_nil
  simpa using ha

theorem mul_scalar_length_le (a : List F) (lam : F) :
    (mul_scalar a lam).length ≤ a.length := by
  rw [mul_scalar]
  refine le_trans (trim_coefs_length_le _) ?_
  simp

theorem is_zero_single (c : F) : is_zero [c] = some (decide (c = 0)) := rfl

theorem toPoly_single (c : F) : toPoly [c] = C c := by
  simp [toPoly]

theorem toPoly_pair_eval (a b z : F) : (toPoly [a, b]).eval z = a + b * z := by
  simp [toPoly]

theorem div_vanishing (p : List F) (z : F) :
    ∃ q, div_rem (sub p (from_coefs [eval p z])) (from_coefs [-z, 1]) =
        some (q, [0]) ∧
      q ≠ [] ∧ q.length ≤ max 1 p.length ∧
      ∀ s : F, eval q s * (s - z) = eval p s - eval p z := by
  have hfc : from_coefs [eval p z] = [eval p z] := trim_single _
  have hvan : from_coefs [-z, 1] = [-z, 1] := trim_coefs_pair _ _ one_ne_zero
  set nom := sub p (from_coefs [eval p z]) with hnom
  have hnom_ne : nom ≠ [] := sub_ne_nil _ _ (by rw [hfc]; simp)
  have hnomlen : nom.length ≤ max p.length 1 := by
    have := sub_length_le p (from_coefs [eval p z])
    rw [hfc] at this
    simpa using this
  have hlast : ([-z, 1] : List F).getLastD 0 ≠ 0 := by
    rw [show ([-z, 1] : List F).getLastD 0 = 1 from rfl]
    exact one_ne_zero
  obtain ⟨q, r, heq, hid, hrlen, hrne, _, hqne, hqlen⟩ :=
    div_rem_spec nom [-z, 1] (by simp) hlast
  have hr1 : r.length = 1 := by
    have h1 := hrne hnom_ne
    have h2 : 1 ≤ r.length := List.length_pos.2 h1
    simp at hrlen
    omega
  obtain ⟨c, hc⟩ : ∃ c, r = [c] := by
    cases r with
    | nil => simp at hr1
    | cons c t =>
      refine ⟨c, ?_⟩
      simp at hr1
      rw [hr1]
  subst hc
  have hnomeval : ∀ s : F, (toPoly nom).eval s = eval p s - eval p z := by
    intro s
    rw [hnom, toPoly_sub, hfc, toPoly_single]
    simp [eval_eq_toPoly_eval]
  have hide : ∀ s : F,
      eval q s * (-z + 1 * s) + c = eval p s - eval p z := by
    intro s
    have := congrArg (Polynomial.eval s) hid
    rw [Polynomial.eval_add, Polynomial.eval_mul, toPoly_pair_eval,
      toPoly_single, Polynomial.eval_C, hnomeval s] at this
    rw [← eval_eq_toPoly_eval] at this
    exact this
  have hc0 : c = 0 := by
    have h0 := hide z
    have harg : (-z + 1 * z : F) = 0 := by ring
    rw [harg, mul_zero, zero_add, sub_self] at h0
    exact h0
  subst hc0
  refine ⟨q, by rw [hvan]; exact heq, hqne, ?_, ?_⟩
  · have h2 : ([-z, 1] : List F).length = 2 := rfl
    rw [h2] at hqlen
    omega
  intro s
  have := hide s
  have harg : eval q s * (s - z) = eval q s * (-z + 1 * s) := by ring
  rw [harg, ← this]
  ring

end ProveLemmas

section Claims

open Polynomial

/-- C10: `from_coefs` applied to the empty coefficient list returns a
polynomial whose coefficient vector is empty (the one-zero-coefficient
canonical form is not restored); on this value `degree` returns `0`,
and `is_zero` indexes position `0` of the empty vector (a panic,
modelled as `none`), so `is_zero` is total exactly on polynomials with
at least one stored coefficient. -/
theorem C10_empty_input {F : Type} [Field F] [DecidableEq F] :
    from_coefs ([] : List F) = [] ∧
    degree ([] : List F) = 0 ∧
    is_zero ([] : List F) = none ∧
    ∀ l : List F, l ≠ [] → is_zero l ≠ none := by
  refine ⟨rfl, rfl, rfl, ?_⟩
  intro l hl
  rw [is_zero]
  by_cases hd : degree l = 0
  · rw [if_pos hd]
    cases l with
    | nil => exact absurd rfl hl
    | cons a t => simp
  · rw [if_neg hd]
    simp

/-- Witness for C10 at a concrete input: `is_zero` is defined on the
one-element list `[1]` over the rationals. -/
theorem C10_empty_input_witness :
    ([(1 : ℚ)] ≠ []) ∧ is_zero [(1 : ℚ)] ≠ none :=
  ⟨by decide, C10_empty_input.2.2.2 [(1 : ℚ)] (by decide)⟩

/-- C5 counterexample: on the empty coefficient list, `from_coefs`
returns the empty vector, which is not canonical (its length is not one
and it has no nonzero last coefficient), so the claim fails at `c = []`. -/
theorem C5_counterexample :
    from_coefs ([] : List ℚ) = [] ∧ ¬ canonicalP ([] : List ℚ) := by
  refine ⟨rfl, ?_⟩
  intro h
  rcases h with h1 | h2
  · simp at h1
  · simp [List.getLastD] at h2

/-- C5 (amended): for every nonempty coefficient list `c` the
constructed polynomial is canonical — length one or nonzero last
coefficient — and for every coefficient list `c`, the empty one
included, and every point `z`, evaluation returns the power sum of the
original list. -/
theorem C5_from_coefs_canonical {F : Type} [Field F] [DecidableEq F]
    (c : List F) :
    (c ≠ [] → canonicalP (from_coefs c)) ∧
    ∀ z : F, eval (from_coefs c) z =
      ∑ i ∈ Finset.range c.length, c.getD i 0 * z ^ i := by
  refine ⟨fun hc => trim_coefs_canonical c hc, ?_⟩
  intro z
  rw [from_coefs, eval_trim, eval_eq_sum]

/-- Witness for C5 at a concrete input, the list `[1, 0]` over the
rationals, discharging the nonemptiness hypothesis of the canonicity
conjunct. -/
theorem C5_from_coefs_canonical_witness :
    (([(1 : ℚ), 0] ≠ []) ∧ canonicalP (from_coefs [(1 : ℚ), 0])) ∧
    ∀ z : ℚ, eval (from_coefs [(1 : ℚ), 0]) z =
      ∑ i ∈ Finset.range ([(1 : ℚ), 0] : List ℚ).length,
        ([(1 : ℚ), 0] : List ℚ).getD i 0 * z ^ i :=
  ⟨⟨by decide, (C5_from_coefs_canonical [(1 : ℚ), 0]).1 (by decide)⟩,
   (C5_from_coefs_canonical [(1 : ℚ), 0]).2⟩

/-- C2 counterexample: dividing the constant polynomial `[1]` by the
constant divisor `[1]` yields remainder `[0]`, whose degree `0` is not
strictly below the divisor degree `0`; the claimed bound
`degree r < degree d` fails for constant divisors. -/
theorem C2_counterexample :
    div_rem [(1 : ℚ)] [(1 : ℚ)] = some ([1], [0]) ∧
    ¬ (degree ([(0 : ℚ)]) < degree ([(1 : ℚ)])) := by
  constructor
  · with_unfolding_all decide
  · decide

/-- C2 (amended): for every polynomial `p` with at least one stored
coefficient and every canonical nonzero divisor `d`, `div_rem` returns
`(q, r)` with `q·d + r = p` as polynomials; `degree r < degree d` holds
whenever `degree d ≥ 1`, and for a constant divisor (`degree d = 0`)
the remainder is the zero polynomial. -/
theorem C2_div_rem_correct {F : Type} [Field F] [DecidableEq F]
    (p d : List F) (hp : p ≠ []) (hcanon : canonicalP d)
    (hnz : is_zero d = some false) :
    ∃ q r, div_rem p d = some (q, r) ∧
      toPoly q * toPoly d + toPoly r = toPoly p ∧
      (1 ≤ degree d → degree r < degree d) ∧
      (degree d = 0 → r = [0]) := by
  have hd : d ≠ [] := by
    intro he
    rw [he] at hnz
    simp [is_zero, degree] at hnz
  have hlast : d.getLastD 0 ≠ 0 := by
    rcases hcanon with h1 | h2
    · obtain ⟨a, ha⟩ : ∃ a, d = [a] := List.length_eq_one.1 h1
      subst ha
      rw [is_zero_single] at hnz
      have ha0 : ¬ (a = 0) := by
        intro h0
        rw [h0] at hnz
        simp at hnz
      rw [show ([a] : List F).getLastD 0 = a from rfl]
      exact ha0
    · exact h2
  obtain ⟨q, r, heq, hid, hrlen, hrne, hr1, _, _⟩ := div_rem_spec p d hd hlast
  have hdlen := degree_add_one d hd
  refine ⟨q, r, heq, hid, ?_, ?_⟩
  · intro h1
    have hrne' := hrne hp
    have hrl := degree_add_one r hrne'
    omega
  · intro h0
    exact hr1 hp (by omega)

/-- Witness for C2 at the concrete division of `1 + X + X²` by `1 + X`
over the rationals. -/
theorem C2_div_rem_correct_witness :
    ([(1 : ℚ), 1, 1] ≠ [] ∧ canonicalP [(1 : ℚ), 1] ∧
      is_zero [(1 : ℚ), 1] = some false) ∧
    (∃ q r, div_rem [(1 : ℚ), 1, 1] [(1 : ℚ), 1] = some (q, r) ∧
      toPoly q * toPoly [(1 : ℚ), 1] + toPoly r = toPoly [(1 : ℚ), 1, 1] ∧
      (1 ≤ degree [(1 : ℚ), 1] → degree r < degree [(1 : ℚ), 1]) ∧
      (degree [(1 : ℚ), 1] = 0 → r = [0])) :=
  ⟨⟨by decide, by decide, by decide⟩,
   C2_div_rem_correct [(1 : ℚ), 1, 1] [(1 : ℚ), 1] (by decide) (by decide)
     (by decide)⟩

/-- C3 counterexample: with a one-point SRS, committing to the
empty-coefficient polynomial `from_coefs []` satisfies
`degree + 1 ≤ len τ₁`, yet `commit` neither succeeds nor returns
`DegreeError`: the MSM length check fails and the `unwrap` panics
(`none`). -/
theorem C3_counterexample :
    commit (⟨[(1 : ℚ)], ([] : List ℚ)⟩ : KZGCommitmentScheme ℚ ℚ)
        (from_coefs ([] : List ℚ)) = none ∧
    degree (from_coefs ([] : List ℚ)) + 1 ≤ 1 := by
  constructor
  · decide
  · decide

/-- C3 (amended): for every polynomial with at least one stored
coefficient, `commit` fails with `DegreeError` exactly when
`degree + 1` exceeds the SRS G1 length, and otherwise succeeds with the
multi-scalar multiplication of the coefficients against the SRS; commit
never returns Ok for an over-degree polynomial. -/
theorem C3_commit_spec {F G1 G2 : Type} [Field F] [DecidableEq F]
    [AddCommGroup G1] [Module F G1]
    (srs : KZGCommitmentScheme G1 G2) (p : List F) (hp : p ≠ []) :
    (degree p + 1 > srs.public_parameter_group_1.length →
      commit srs p = some (.error .DegreeError)) ∧
    (degree p + 1 ≤ srs.public_parameter_group_1.length →
      commit srs p = some (.ok ⟨∑ i ∈ Finset.range (degree p + 1),
        p.getD i 0 • srs.public_parameter_group_1.getD i 0⟩)) ∧
    ∀ cm, commit srs p = some (.ok cm) →
      degree p + 1 ≤ srs.public_parameter_group_1.length := by
  have hd1 := degree_add_one p hp
  refine ⟨?_, ?_, ?_⟩
  · intro hgt
    rw [commit, if_pos hgt]
  · intro hle
    have hlen : p.length ≤ srs.public_parameter_group_1.length := by omega
    rw [commit_ok srs p hp hlen, hd1, ← msmv_sum_range p _ hlen]
  · intro cm h
    have := (commit_ok_inv srs p cm h).2.1
    omega

/-- Witness for C3 at a concrete SRS of two rational points and the
polynomial `2 + 3X`. -/
theorem C3_commit_spec_witness :
    ([(2 : ℚ), 3] ≠ []) ∧
    ((degree [(2 : ℚ), 3] + 1 >
        (⟨[(1 : ℚ), 5], []⟩ :
          KZGCommitmentScheme ℚ ℚ).public_parameter_group_1.length →
      commit (⟨[(1 : ℚ), 5], []⟩ : KZGCommitmentScheme ℚ ℚ) [(2 : ℚ), 3] =
        some (.error .DegreeError)) ∧
    (degree [(2 : ℚ), 3] + 1 ≤
        (⟨[(1 : ℚ), 5], []⟩ :
          KZGCommitmentScheme ℚ ℚ).public_parameter_group_1.length →
      commit (⟨[(1 : ℚ), 5], []⟩ : KZGCommitmentScheme ℚ ℚ) [(2 : ℚ), 3] =
        some (.ok ⟨∑ i ∈ Finset.range (degree [(2 : ℚ), 3] + 1),
          ([(2 : ℚ), 3] : List ℚ).getD i 0 •
            (⟨[(1 : ℚ), 5], []⟩ :
              KZGCommitmentScheme ℚ ℚ).public_parameter_group_1.getD i 0⟩)) ∧
    ∀ cm, commit (⟨[(1 : ℚ), 5], []⟩ : KZGCommitmentScheme ℚ ℚ)
        [(2 : ℚ), 3] = some (.ok cm) →
      degree [(2 : ℚ), 3] + 1 ≤
        (⟨[(1 : ℚ), 5], []⟩ :
          KZGCommitmentScheme ℚ ℚ).public_parameter_group_1.length) :=
  ⟨by decide,
   C3_commit_spec (⟨[(1 : ℚ), 5], []⟩ : KZGCommitmentScheme ℚ ℚ)
     [(2 : ℚ), 3] (by decide)⟩

theorem is_zero_zero_single {F : Type} [Field F] [DecidableEq F] :
    is_zero [(0 : F)] = some true := by
  rw [is_zero_single]
  simp

/-- C8: the nonzero-remainder error branch of `prove` is unreachable:
dividing `p - p(z)` by the vanishing polynomial `X - z` always yields
the zero remainder, and `prove` never returns `PCSProveEvalError` (its
possible outcomes are a `DegreeError`, a panic, or success). -/
theorem C8_prove_remainder_zero {F G1 G2 : Type} [Field F] [DecidableEq F]
    [AddCommGroup G1] [Module F G1]
    (srs : KZGCommitmentScheme G1 G2) (p : List F) (z : F) (maxd : Nat) :
    (∃ q, div_rem (sub p (from_coefs [eval p z])) (from_coefs [-z, 1]) =
      some (q, [0])) ∧
    (prove srs p z maxd = none ∨
     prove srs p z maxd = some (.error .DegreeError) ∨
     ∃ pf, prove srs p z maxd = some (.ok pf)) := by
  obtain ⟨q, heq, hqne, hqlen, hev⟩ := div_vanishing p z
  refine ⟨⟨q, heq⟩, ?_⟩
  by_cases hdeg : degree p > maxd
  · right; left
    rw [prove, if_pos hdeg]
  · rcases hc : commit srs q with _ | exc
    · left
      simp only [prove, if_neg hdeg, heq, is_zero_zero_single, not_true,
        if_neg, hc]
      simp
    · cases exc with
      | error e =>
        left
        simp only [prove, if_neg hdeg, heq, is_zero_zero_single, hc]
        simp
      | ok pf =>
        right; right
        refine ⟨pf, ?_⟩
        simp only [prove, if_neg hdeg, heq, is_zero_zero_single, hc]
        simp

/-- C4: commitment homomorphism: for polynomials `p`, `q` committable
under the SRS (their commits succeed), the commitment of `p + q` is the
commitment group sum, and for every scalar the commitment of the scaled
polynomial is the scalar action on the commitment. -/
theorem C4_commit_homomorphism {F G1 G2 : Type} [Field F] [DecidableEq F]
    [AddCommGroup G1] [Module F G1]
    (srs : KZGCommitmentScheme G1 G2) (p q : List F)
    (cp cq : KZGCommitment G1)
    (hp : commit srs p = some (.ok cp))
    (hq : commit srs q = some (.ok cq)) :
    commit srs (add p q) = some (.ok (cp.add cq)) ∧
    ∀ lam : F, commit srs (mul_scalar p lam) = some (.ok (cp.mul lam)) := by
  obtain ⟨hpne, hplen, hpv⟩ := commit_ok_inv srs p cp hp
  obtain ⟨hqne, hqlen, hqv⟩ := commit_ok_inv srs q cq hq
  constructor
  · have haddne : add p q ≠ [] := add_ne_nil p q hpne
    have haddlen : (add p q).length ≤
        srs.public_parameter_group_1.length :=
      le_trans (add_length_le p q) (max_le hplen hqlen)
    rw [commit_ok srs _ haddne haddlen, msmv_add, hpv, hqv]
    rfl
  · intro lam
    have hmne := mul_scalar_ne_nil p lam hpne
    have hmlen : (mul_scalar p lam).length ≤
        srs.public_parameter_group_1.length :=
      le_trans (mul_scalar_length_le p lam) hplen
    rw [commit_ok srs _ hmne hmlen, msmv_mul_scalar, hpv]
    rfl

/-- Witness for C4 at the SRS `[1, 2, 4]` over `ZMod 101` with the
polynomials `2 + 3X + 6X²` and `1 + 8X + 4X²` of the source tests. -/
theorem C4_commit_homomorphism_witness :
    (commit (⟨[(1 : ZMod 101), 2, 4], []⟩ :
        KZGCommitmentScheme (ZMod 101) (ZMod 101))
        [(2 : ZMod 101), 3, 6] = some (.ok ⟨32⟩) ∧
     commit (⟨[(1 : ZMod 101), 2, 4], []⟩ :
        KZGCommitmentScheme (ZMod 101) (ZMod 101))
        [(1 : ZMod 101), 8, 4] = some (.ok ⟨33⟩)) ∧
    (commit (⟨[(1 : ZMod 101), 2, 4], []⟩ :
        KZGCommitmentScheme (ZMod 101) (ZMod 101))
        (add [(2 : ZMod 101), 3, 6] [(1 : ZMod 101), 8, 4]) =
      some (.ok (KZGCommitment.add ⟨32⟩ ⟨33⟩)) ∧
     ∀ lam : ZMod 101, commit (⟨[(1 : ZMod 101), 2, 4], []⟩ :
        KZGCommitmentScheme (ZMod 101) (ZMod 101))
        (mul_scalar [(2 : ZMod 101), 3, 6] lam) =
      some (.ok (KZGCommitment.mul ⟨32⟩ lam))) :=
  ⟨⟨by decide, by decide⟩,
   C4_commit_homomorphism
     (⟨[(1 : ZMod 101), 2, 4], []⟩ :
       KZGCommitmentScheme (ZMod 101) (ZMod 101))
     [(2 : ZMod 101), 3, 6] [(1 : ZMod 101), 8, 4] ⟨32⟩ ⟨33⟩
     (by decide) (by decide)⟩

/-- C9: blinding arithmetic identity: when `n + m - 1 < len τ₁`,
`apply_blind_factors` adds `bᵢ • τ₁[i]` and subtracts `bᵢ • τ₁[n+i]`
for every blind index `i < m`. -/
theorem C9_apply_blind_factors {F G1 G2 : Type} [Field F] [DecidableEq F]
    [AddCommGroup G1] [Module F G1]
    (srs : KZGCommitmentScheme G1 G2) (c : KZGCommitment G1)
    (blinds : List F) (n : Nat)
    (h : n + blinds.length - 1 < srs.public_parameter_group_1.length) :
    apply_blind_factors srs c blinds n =
      some ⟨c.val +
        ∑ i ∈ Finset.range blinds.length,
          blinds.getD i 0 • srs.public_parameter_group_1.getD i 0 -
        ∑ i ∈ Finset.range blinds.length,
          blinds.getD i 0 • srs.public_parameter_group_1.getD (n + i) 0⟩ := by
  rw [apply_blind_factors]
  have hb : ∀ j, j < blinds.length →
      0 + j < srs.public_parameter_group_1.length ∧
      n + (0 + j) < srs.public_parameter_group_1.length := by
    intro j hj
    omega
  rw [blindLoop_spec srs.public_parameter_group_1 n blinds 0 c.val hb]
  simp only [Nat.zero_add]

/-- Witness for C9: one blind factor `3`, zeroing degree `1`, against
the SRS `[1, 2, 4]` over the rationals. -/
theorem C9_apply_blind_factors_witness :
    (1 + [(3 : ℚ)].length - 1 <
      (⟨[(1 : ℚ), 2, 4], []⟩ :
        KZGCommitmentScheme ℚ ℚ).public_parameter_group_1.length) ∧
    apply_blind_factors (⟨[(1 : ℚ), 2, 4], []⟩ : KZGCommitmentScheme ℚ ℚ)
        ⟨10⟩ [(3 : ℚ)] 1 =
      some ⟨(10 : ℚ) +
        ∑ i ∈ Finset.range ([(3 : ℚ)] : List ℚ).length,
          ([(3 : ℚ)] : List ℚ).getD i 0 •
            (⟨[(1 : ℚ), 2, 4], []⟩ :
              KZGCommitmentScheme ℚ ℚ).public_parameter_group_1.getD i 0 -
        ∑ i ∈ Finset.range ([(3 : ℚ)] : List ℚ).length,
          ([(3 : ℚ)] : List ℚ).getD i 0 •
            (⟨[(1 : ℚ), 2, 4], []⟩ :
              KZGCommitmentScheme ℚ ℚ).public_parameter_group_1.getD
                (1 + i) 0⟩ :=
  ⟨by decide,
   C9_apply_blind_factors (⟨[(1 : ℚ), 2, 4], []⟩ : KZGCommitmentScheme ℚ ℚ)
     ⟨10⟩ [(3 : ℚ)] 1 (by decide)⟩

/-- C1: completeness of opening: against an honestly generated SRS
(powers of a trapdoor `s` applied to the G1 and G2 generators) and a
bilinear pairing, for every polynomial `p` with at least one stored
coefficient and `degree p ≤ max_degree` and every point `z`, commit and
prove succeed and
`verify (commit p) (degree p) z (p(z)) (prove p z (degree p))`
accepts. -/
theorem C1_opening_completeness {F G1 G2 GT : Type} [Field F]
    [DecidableEq F] [AddCommGroup G1] [Module F G1] [AddCommGroup G2]
    [Module F G2] [DecidableEq GT] [AddCommGroup GT] [Module F GT]
    (pairing : G1 → G2 → GT)
    (hb1 : ∀ (a : F) (x : G1) (y : G2), pairing (a • x) y = a • pairing x y)
    (hb2 : ∀ (b : F) (x : G1) (y : G2), pairing x (b • y) = b • pairing x y)
    (g1 : G1) (g2 : G2) (s : F) (d : Nat)
    (srs : KZGCommitmentScheme G1 G2)
    (h1 : srs.public_parameter_group_1 =
      (List.range (d + 1)).map (fun i => s ^ i • g1))
    (h2 : srs.public_parameter_group_2 = [g2, s • g2])
    (p : List F) (hp : p ≠ []) (hdeg : degree p ≤ max_degree srs) (z : F) :
    ∃ cm pf, commit srs p = some (.ok cm) ∧
      prove srs p z (degree p) = some (.ok pf) ∧
      verify pairing srs cm (degree p) z (eval p z) pf = some (.ok ()) := by
  have hτlen : srs.public_parameter_group_1.length = d + 1 := by
    rw [h1]; simp
  have hp1 : 1 ≤ p.length := List.length_pos.2 hp
  have hpdeg := degree_add_one p hp
  rw [max_degree, hτlen] at hdeg
  have hplen : p.length ≤ d + 1 := by omega
  have hpv : msmv p srs.public_parameter_group_1 = eval p s • g1 := by
    rw [h1]
    exact msmv_geom s p (d + 1) g1 hplen
  have hcm : commit srs p = some (.ok ⟨eval p s • g1⟩) := by
    rw [commit_ok srs p hp (by omega), hpv]
  obtain ⟨q, heq, hqne, hqlen, hev⟩ := div_vanishing p z
  have hqlen' : q.length ≤ srs.public_parameter_group_1.length := by
    rw [hτlen]; omega
  have hqv : msmv q srs.public_parameter_group_1 = eval q s • g1 := by
    rw [h1]
    exact msmv_geom s q (d + 1) g1 (by rw [hτlen] at hqlen'; omega)
  have hcq : commit srs q = some (.ok ⟨eval q s • g1⟩) := by
    rw [commit_ok srs q hqne hqlen', hqv]
  have hprove : prove srs p z (degree p) = some (.ok ⟨eval q s • g1⟩) := by
    simp only [prove, if_neg (show ¬ degree p > degree p by omega), heq,
      is_zero_zero_single, hcq]
    simp
  have hg10 : srs.public_parameter_group_1.get? 0 = some g1 := by
    rw [h1, List.range_succ_eq_map, List.map_cons]
    simp
  have hg20 : srs.public_parameter_group_2.get? 0 = some g2 := by
    rw [h2]; rfl
  have hg21 : srs.public_parameter_group_2.get? 1 = some (s • g2) := by
    rw [h2]; rfl
  refine ⟨⟨eval p s • g1⟩, ⟨eval q s • g1⟩, hcm, hprove, ?_⟩
  have hleft : (if eval p z = 0 then
        pairing (⟨eval p s • g1⟩ : KZGCommitment G1).val g2
      else pairing ((⟨eval p s • g1⟩ : KZGCommitment G1).val -
        eval p z • g1) g2) =
      (eval p s - eval p z) • pairing g1 g2 := by
    by_cases hz0 : eval p z = 0
    · rw [if_pos hz0, hz0, sub_zero]
      exact hb1 _ _ _
    · rw [if_neg hz0]
      rw [show (⟨eval p s • g1⟩ : KZGCommitment G1).val = eval p s • g1
        from rfl, ← sub_smul]
      exact hb1 _ _ _
  have hright : pairing (⟨eval q s • g1⟩ : KZGCommitment G1).val
        (s • g2 - z • g2) =
      (eval p s - eval p z) • pairing g1 g2 := by
    rw [show (⟨eval q s • g1⟩ : KZGCommitment G1).val = eval q s • g1
      from rfl, ← sub_smul, hb2, hb1, smul_smul, mul_comm, hev s]
  rw [verify, hg10, hg20, hg21]
  simp only []
  rw [hleft, hright, if_pos rfl]

/-- Witness for C1 over `ZMod 5` with trapdoor `s = 2`, generators `1`,
the multiplication pairing, and the polynomial `1 + 2X` opened at
`z = 3`. -/
theorem C1_opening_completeness_witness :
    ((∀ (a x y : ZMod 5), (fun u v => u * v) (a • x) y =
        a • (fun u v => u * v) x y) ∧
     (∀ (b x y : ZMod 5), (fun u v => u * v) x (b • y) =
        b • (fun u v => u * v) x y) ∧
     (⟨[(1 : ZMod 5), 2, 4], [(1 : ZMod 5), 2]⟩ :
        KZGCommitmentScheme (ZMod 5) (ZMod 5)).public_parameter_group_1 =
       (List.range (2 + 1)).map (fun i => (2 : ZMod 5) ^ i • (1 : ZMod 5)) ∧
     (⟨[(1 : ZMod 5), 2, 4], [(1 : ZMod 5), 2]⟩ :
        KZGCommitmentScheme (ZMod 5) (ZMod 5)).public_parameter_group_2 =
       [(1 : ZMod 5), (2 : ZMod 5) • (1 : ZMod 5)] ∧
     ([(1 : ZMod 5), 2] ≠ []) ∧
     degree [(1 : ZMod 5), 2] ≤
       max_degree (⟨[(1 : ZMod 5), 2, 4], [(1 : ZMod 5), 2]⟩ :
         KZGCommitmentScheme (ZMod 5) (ZMod 5))) ∧
    ∃ cm pf,
      commit (⟨[(1 : ZMod 5), 2, 4], [(1 : ZMod 5), 2]⟩ :
          KZGCommitmentScheme (ZMod 5) (ZMod 5)) [(1 : ZMod 5), 2] =
        some (.ok cm) ∧
      prove (⟨[(1 : ZMod 5), 2, 4], [(1 : ZMod 5), 2]⟩ :
          KZGCommitmentScheme (ZMod 5) (ZMod 5)) [(1 : ZMod 5), 2] 3
        (degree [(1 : ZMod 5), 2]) = some (.ok pf) ∧
      verify (fun u v => u * v)
        (⟨[(1 : ZMod 5), 2, 4], [(1 : ZMod 5), 2]⟩ :
          KZGCommitmentScheme (ZMod 5) (ZMod 5)) cm
        (degree [(1 : ZMod 5), 2]) 3 (eval [(1 : ZMod 5), 2] 3) pf =
        some (.ok ()) :=
  ⟨⟨by decide, by decide, by decide, by decide, by decide, by decide⟩,
   C1_opening_completeness (fun u v => u * v) (by decide) (by decide)
     1 1 2 2 _ (by decide) (by decide) [(1 : ZMod 5), 2] (by decide)
     (by decide) 3⟩

/-- C7: SRS round-trip: with per-point encoders and decoders that
invert each other at fixed encoded sizes, and sequence lengths
representable as u32, deserializing the unchecked serialization of an
SRS returns exactly that SRS. -/
theorem C7_srs_round_trip {P1 P2 : Type} (n1 n2 : Nat)
    (e1 : P1 → List Nat) (d1 : List Nat → Option P1)
    (e2 : P2 → List Nat) (d2 : List Nat → Option P2)
    (srs : KZGCommitmentScheme P1 P2)
    (hrt1 : ∀ g, d1 (e1 g) = some g) (hlen1 : ∀ g, (e1 g).length = n1)
    (hrt2 : ∀ g, d2 (e2 g) = some g) (hlen2 : ∀ g, (e2 g).length = n2)
    (hu1 : srs.public_parameter_group_1.length < 2 ^ 32)
    (hu2 : srs.public_parameter_group_2.length < 2 ^ 32) :
    from_unchecked_bytes n1 n2 d1 d2 (to_unchecked_bytes e1 e2 srs) =
      some (.ok srs) := by
  set L1 := srs.public_parameter_group_1.length with hL1
  set L2 := srs.public_parameter_group_2.length with hL2
  set f1 := (srs.public_parameter_group_1.map e1).flatten with hf1
  set f2 := (srs.public_parameter_group_2.map e2).flatten with hf2
  have hf1len : f1.length = n1 * L1 :=
    flatten_map_length e1 n1 _ (fun g _ => hlen1 g)
  have hf2len : f2.length = n2 * L2 :=
    flatten_map_length e2 n2 _ (fun g _ => hlen2 g)
  have hm1 : L1 % 2 ^ 32 = L1 := Nat.mod_eq_of_lt hu1
  have hm2 : L2 % 2 ^ 32 = L2 := Nat.mod_eq_of_lt hu2
  have hbytes : to_unchecked_bytes e1 e2 srs =
      L1 % 256 :: L1 / 256 % 256 :: L1 / 256 ^ 2 % 256 ::
      L1 / 256 ^ 3 % 256 :: L2 % 256 :: L2 / 256 % 256 ::
      L2 / 256 ^ 2 % 256 :: L2 / 256 ^ 3 % 256 :: (f1 ++ f2) := by
    rw [to_unchecked_bytes, u32_to_le_bytes, u32_to_le_bytes, hm1, hm2]
    simp [List.append_assoc]
  set bytes := to_unchecked_bytes e1 e2 srs with hbdef
  have hblen : bytes.length = 8 + (n1 * L1 + n2 * L2) := by
    rw [hbytes]
    simp [hf1len, hf2len]
    omega
  have hr1 : read_len_1 bytes = L1 := by
    rw [read_len_1, hbytes]
    simp only [List.getD_cons_zero, List.getD_cons_succ]
    exact u32_round_trip L1 hu1
  have hr2 : read_len_2 bytes = L2 := by
    rw [read_len_2, hbytes]
    simp only [List.getD_cons_zero, List.getD_cons_succ]
    exact u32_round_trip L2 hu2
  have hdrop8 : bytes.drop 8 = f1 ++ f2 := by
    rw [hbytes]
    rfl
  have hdrop2 : bytes.drop (8 + n1 * L1) = f2 := by
    rw [← List.drop_drop, hdrop8, ← hf1len, List.drop_left]
  have hrp1 : readPoints d1 (bytes.drop 8) n1 0 L1 =
      some (.ok srs.public_parameter_group_1) := by
    rw [hdrop8]
    have := readPoints_encode d1 e1 n1 srs.public_parameter_group_1 0 [] f2
      (by simp) (fun g _ => ⟨hlen1 g, hrt1 g⟩)
    simpa [hf1] using this
  have hrp2 : readPoints d2 (bytes.drop (8 + n1 * L1)) n2 0 L2 =
      some (.ok srs.public_parameter_group_2) := by
    rw [hdrop2]
    have := readPoints_encode d2 e2 n2 srs.public_parameter_group_2 0 [] []
      (by simp) (fun g _ => ⟨hlen2 g, hrt2 g⟩)
    simpa [hf2] using this
  rw [from_unchecked_bytes, if_neg (by omega)]
  simp only [hr1, hr2]
  rw [if_pos (by omega)]
  simp only [hrp1, hrp2]

/-- Witness for C7 at a one-byte point encoding over a singleton point
type: the two-point SRS round-trips. -/
theorem C7_srs_round_trip_witness :
    ((∀ g : Unit, (fun _ : List Nat => some ()) ((fun _ : Unit => [0]) g)
        = some g) ∧
     (∀ g : Unit, ((fun _ : Unit => [0]) g).length = 1) ∧
     (∀ g : Unit, (fun _ : List Nat => some ()) ((fun _ : Unit => [7]) g)
        = some g) ∧
     (∀ g : Unit, ((fun _ : Unit => [7]) g).length = 1) ∧
     (⟨[()], [(), ()]⟩ :
       KZGCommitmentScheme Unit Unit).public_parameter_group_1.length
        < 2 ^ 32 ∧
     (⟨[()], [(), ()]⟩ :
       KZGCommitmentScheme Unit Unit).public_parameter_group_2.length
        < 2 ^ 32) ∧
    from_unchecked_bytes 1 1 (fun _ : List Nat => some ())
        (fun _ : List Nat => some ())
        (to_unchecked_bytes (fun _ : Unit => [0]) (fun _ : Unit => [7])
          (⟨[()], [(), ()]⟩ : KZGCommitmentScheme Unit Unit)) =
      some (.ok (⟨[()], [(), ()]⟩ : KZGCommitmentScheme Unit Unit)) :=
  ⟨⟨by decide, by decide, by decide, by decide, by decide, by decide⟩,
   C7_srs_round_trip 1 1 (fun _ : Unit => [0]) (fun _ : List Nat => some ())
     (fun _ : Unit => [7]) (fun _ : List Nat => some ())
     (⟨[()], [(), ()]⟩ : KZGCommitmentScheme Unit Unit)
     (by decide) (by decide) (by decide) (by decide) (by decide)
     (by decide)⟩

/-- C6 counterexample: the eight-byte input declaring one G1 point and
no G2 points is malformed (the buffer holds no point data), yet
`from_unchecked_bytes` panics on the out-of-bounds slice
`&bytes[8 + 64..]` (`none`) instead of returning
`DeserializationError`, so the function is not total on arbitrary byte
slices. -/
theorem C6_counterexample :
    from_unchecked_bytes 64 128 (fun _ : List Nat => some (0 : ZMod 5))
      (fun _ : List Nat => some (0 : ZMod 5)) [1, 0, 0, 0, 0, 0, 0, 0] =
      none := by
  decide

/-- C6 (amended): `from_unchecked_bytes` fails with
`DeserializationError` whenever the byte slice is shorter than eight
bytes, and — when the declared layout fits inside the buffer — whenever
some per-point slice fails to decode (first in the G1 loop, then in the
G2 loop once all G1 slices decode); inputs whose declared counts
overrun the buffer panic on slicing instead of returning the error. -/
theorem C6_from_unchecked_bytes_errors {P1 P2 : Type} (n1 n2 : Nat)
    (d1 : List Nat → Option P1) (d2 : List Nat → Option P2)
    (bytes : List Nat) :
    (bytes.length < 8 →
      from_unchecked_bytes n1 n2 d1 d2 bytes =
        some (.error .DeserializationError)) ∧
    (8 ≤ bytes.length →
      8 + n1 * read_len_1 bytes + n2 * read_len_2 bytes ≤ bytes.length →
      (∃ j, j < read_len_1 bytes ∧
        d1 (((bytes.drop 8).drop (n1 * j)).take n1) = none) →
      from_unchecked_bytes n1 n2 d1 d2 bytes =
        some (.error .DeserializationError)) ∧
    (8 ≤ bytes.length →
      8 + n1 * read_len_1 bytes + n2 * read_len_2 bytes ≤ bytes.length →
      (∀ j, j < read_len_1 bytes →
        ∃ g, d1 (((bytes.drop 8).drop (n1 * j)).take n1) = some g) →
      (∃ j, j < read_len_2 bytes ∧
        d2 (((bytes.drop (8 + n1 * read_len_1 bytes)).drop (n2 * j)).take
          n2) = none) →
      from_unchecked_bytes n1 n2 d1 d2 bytes =
        some (.error .DeserializationError)) := by
  refine ⟨?_, ?_, ?_⟩
  · intro h8
    rw [from_unchecked_bytes, if_pos h8]
  · intro h8 hlay hfail
    have hbnd : ∀ j, j < read_len_1 bytes →
        n1 * (0 + j + 1) ≤ (bytes.drop 8).length := by
      intro j hj
      have h00 : 0 + j + 1 = j + 1 := by omega
      rw [h00, List.length_drop]
      have : n1 * (j + 1) ≤ n1 * read_len_1 bytes :=
        Nat.mul_le_mul_left n1 (by omega)
      omega
    have hfail' : ∃ j, j < read_len_1 bytes ∧
        d1 (((bytes.drop 8).drop (n1 * (0 + j))).take n1) = none := by
      obtain ⟨j, hj, hf⟩ := hfail
      exact ⟨j, hj, by simpa using hf⟩
    have herr := readPoints_error_of_fail d1 (bytes.drop 8) n1
      (read_len_1 bytes) 0 hbnd hfail'
    rw [from_unchecked_bytes, if_neg (by omega)]
    rw [if_pos (by omega)]
    simp only [herr]
  · intro h8 hlay hok hfail
    have hbnd : ∀ j, j < read_len_1 bytes →
        n1 * (0 + j + 1) ≤ (bytes.drop 8).length := by
      intro j hj
      have h00 : 0 + j + 1 = j + 1 := by omega
      rw [h00, List.length_drop]
      have : n1 * (j + 1) ≤ n1 * read_len_1 bytes :=
        Nat.mul_le_mul_left n1 (by omega)
      omega
    have hok' : ∀ j, j < read_len_1 bytes →
        ∃ g, d1 (((bytes.drop 8).drop (n1 * (0 + j))).take n1) = some g := by
      intro j hj
      obtain ⟨g, hg⟩ := hok j hj
      exact ⟨g, by simpa using hg⟩
    obtain ⟨gs, hgs⟩ := readPoints_ok_of_all d1 (bytes.drop 8) n1
      (read_len_1 bytes) 0 hbnd hok'
    have hbnd2 : ∀ j, j < read_len_2 bytes →
        n2 * (0 + j + 1) ≤ (bytes.drop (8 + n1 * read_len_1 bytes)).length := by
      intro j hj
      have h00 : 0 + j + 1 = j + 1 := by omega
      rw [h00, List.length_drop]
      have : n2 * (j + 1) ≤ n2 * read_len_2 bytes :=
        Nat.mul_le_mul_left n2 (by omega)
      omega
    have hfail2' : ∃ j, j < read_len_2 bytes ∧
        d2 (((bytes.drop (8 + n1 * read_len_1 bytes)).drop
          (n2 * (0 + j))).take n2) = none := by
      obtain ⟨j, hj, hf⟩ := hfail
      exact ⟨j, hj, by simpa using hf⟩
    have herr2 := readPoints_error_of_fail d2
      (bytes.drop (8 + n1 * read_len_1 bytes)) n2
      (read_len_2 bytes) 0 hbnd2 hfail2'
    rw [from_unchecked_bytes, if_neg (by omega)]
    rw [if_pos (by omega)]
    simp only [hgs, herr2]

/-- Witness for C6 at the empty byte slice, which is shorter than eight
bytes and is rejected with `DeserializationError`. -/
theorem C6_from_unchecked_bytes_errors_witness :
    (([] : List Nat).length < 8) ∧
    from_unchecked_bytes 64 128 (fun _ : List Nat => some (0 : ZMod 5))
      (fun _ : List Nat => some (0 : ZMod 5)) [] =
      some (.error .DeserializationError) :=
  ⟨by decide,
   (C6_from_unchecked_bytes_errors 64 128
     (fun _ : List Nat => some (0 : ZMod 5))
     (fun _ : List Nat => some (0 : ZMod 5)) []).1 (by decide)⟩

end Claims

end Plonkit
